import Mathlib

/-!
# Verification of the Tic-Tac-Toe minimax engine

Shallow embedding of `src/tictactoe.py` (CLI Tic-Tac-Toe with an
alpha-beta-pruned minimax AI), together with proofs of the specified
properties of the Board Model and the Search Engine.

Modelling conventions:
* The Python code stores one-character strings in the board and in the
  result of `check_winner`; the only operation ever applied to them is
  an equality test.  They are modelled by the inductive type `Cell`:
  `Cell.e ↔ " "` (Empty), `Cell.X ↔ "X"`, `Cell.O ↔ "O"`,
  `Cell.D ↔ "D"` (the draw marker returned by `check_winner`), and
  `Cell.Z` stands for a fixed one-character string outside the game's
  alphabet (used to discuss validation of malformed boards).
* A board is a `List Cell`; Python's `board[i]` is modelled by
  `List.getD` with default `Cell.e`.  All boards in the claims have
  length 9 and every accessed index is below the length, where `getD`
  agrees with Python indexing.
* `float` scores with `±math.inf` are modelled by `Int`; the initial
  `-math.inf` / `+math.inf` values of `value`, `alpha` and `beta` are
  modelled by the sentinels `-2` / `2`, which behave identically
  because every real score lies in `{-1, 0, 1}`
  (see `minimax_score_range`).
* The recursion of `minimax` is expressed with an explicit fuel
  parameter; fuel at least the number of empty cells (at most 9 on a
  9-cell board) makes the fuel case unreachable (`minimax_fuel_irrel`).
* The in-place mutation (`board[m] = player` … `board[m] = " "`) is
  modelled twice: `minimax` passes the updated board functionally, and
  `minimaxSt` threads the board state through every write exactly as
  the Python code performs them, returning the final board; the two
  agree and the final board equals the input (`minimaxSt_spec`).
* `random.choice` is modelled by an arbitrary choice function
  `choice : List Nat → Nat` assumed to pick an element of its
  (nonempty) argument.
-/

/-- A board cell / one-character string of the Python source. -/
inductive Cell where
  | e
  | X
  | O
  | D
  | Z
deriving DecidableEq, Repr

/-- The 8 win lines of the 3×3 grid: `WIN_LINES` from the source. -/
def WIN_LINES : List (Nat × Nat × Nat) :=
  [(0, 1, 2), (3, 4, 5), (6, 7, 8),
   (0, 3, 6), (1, 4, 7), (2, 5, 8),
   (0, 4, 8), (2, 4, 6)]

/-- A board: ordered list of cells, `Cell.e` = Empty. -/
abbrev Board := List Cell

/-- `fresh_board` from the source: nine empty cells. -/
def fresh_board : Board := List.replicate 9 Cell.e

/-- The scan of the win lines performed by `check_winner`:
first line whose three cells are equal and non-empty. -/
def lineWinner (board : Board) : List (Nat × Nat × Nat) → Option Cell
  | [] => none
  | (a, b, c) :: rest =>
    if board.getD a Cell.e ≠ Cell.e ∧ board.getD a Cell.e = board.getD b Cell.e ∧
        board.getD b Cell.e = board.getD c Cell.e then
      some (board.getD a Cell.e)
    else lineWinner board rest

/-- `check_winner` from the source: the winning symbol if a line is
complete, `Cell.D` for a full drawn board, `none` while the game is
on. -/
def check_winner (board : Board) : Option Cell :=
  match lineWinner board WIN_LINES with
  | some w => some w
  | none => if Cell.e ∈ board then none else some Cell.D

/-- `available_moves` from the source: indices of empty cells,
ascending. -/
def available_moves (board : Board) : List Nat :=
  (List.range board.length).filter (fun i => board.getD i Cell.e = Cell.e)

/-- `other` from the source. -/
def other (player : Cell) : Cell := if player = Cell.X then Cell.O else Cell.X

/-- The maximizing loop of `minimax` (`player == maximizing_player`
branch): `f` is the recursive search on the child board; the arguments
after the move list are the running `alpha`, the fixed `beta`, the
running `value` and `best_move`.  A cutoff (`alpha >= beta` after the
update) returns early, exactly as the `break` in the source. -/
def maxLoop (f : Board → Int → Int → Int) (board : Board) (player : Cell) :
    List Nat → Int → Int → Int → Option Nat → Int × Option Nat
  | [], _, _, value, best => (value, best)
  | m :: ms, alpha, beta, value, best =>
    let score := f (board.set m player) alpha beta
    let value' := if value < score then score else value
    let best' := if value < score then some m else best
    let alpha' := max alpha value'
    if beta ≤ alpha' then (value', best')
    else maxLoop f board player ms alpha' beta value' best'

/-- The minimizing loop of `minimax` (the `else` branch), symmetric to
`maxLoop` with the roles of `alpha`/`beta` and `max`/`min`
exchanged. -/
def minLoop (f : Board → Int → Int → Int) (board : Board) (player : Cell) :
    List Nat → Int → Int → Int → Option Nat → Int × Option Nat
  | [], _, _, value, best => (value, best)
  | m :: ms, alpha, beta, value, best =>
    let score := f (board.set m player) alpha beta
    let value' := if score < value then score else value
    let best' := if score < value then some m else best
    let beta' := min beta value'
    if beta' ≤ alpha then (value', best')
    else minLoop f board player ms alpha beta' value' best'

/-- `minimax` from the source, with an explicit recursion fuel.
Score is from `mx`'s (the maximizing player's) perspective; the board
update `board[m] = player` is passed functionally (see `minimaxSt` for
the state-threading version). -/
def minimax : Nat → Board → Cell → Cell → Int → Int → Int × Option Nat
  | 0, board, _, mx, _, _ =>
    match check_winner board with
    | some w => (if w = Cell.D then 0 else if w = mx then 1 else -1, none)
    | none => (0, none)
  | fuel' + 1, board, player, mx, alpha, beta =>
    match check_winner board with
    | some w => (if w = Cell.D then 0 else if w = mx then 1 else -1, none)
    | none =>
      if player = mx then
        maxLoop (fun b a bb => (minimax fuel' b (other player) mx a bb).1)
          board player (available_moves board) alpha beta (-2) none
      else
        minLoop (fun b a bb => (minimax fuel' b (other player) mx a bb).1)
          board player (available_moves board) alpha beta 2 none

/-- The collection loop of `best_move_for_ai`: running maximum score
and the list of all moves attaining it (reset on strict improvement,
append on a tie). -/
def bmLoop (score : Nat → Int) : List Nat → Int → List Nat → Int × List Nat
  | [], best_score, best_moves => (best_score, best_moves)
  | m :: ms, best_score, best_moves =>
    let s := score m
    if best_score < s then bmLoop score ms s [m]
    else if s = best_score then bmLoop score ms best_score (best_moves ++ [m])
    else bmLoop score ms best_score best_moves

/-- The tie set built by `best_move_for_ai`: all legal moves of maximal
minimax score.  Each candidate is searched with the default full window
(`alpha = -∞`, `beta = +∞`, modelled by `-2`, `2`). -/
def best_moves_for_ai (fuel : Nat) (board : Board) (ai : Cell) : List Nat :=
  (bmLoop (fun m => (minimax fuel (board.set m ai) (other ai) ai (-2) 2).1)
    (available_moves board) (-2) []).2

/-- `best_move_for_ai` from the source; `random.choice` is modelled by
the injected `choice` function. -/
def best_move_for_ai (choice : List Nat → Nat) (fuel : Nat)
    (board : Board) (ai : Cell) : Nat :=
  choice (best_moves_for_ai fuel board ai)

/-- The game-theoretic minimax value of a position (plain exhaustive
minimax, no pruning): the reference specification the pruned search is
verified against.  Same terminal scoring and fuel convention as
`minimax`. -/
def gameValue : Nat → Board → Cell → Cell → Int
  | 0, board, _, mx =>
    match check_winner board with
    | some w => if w = Cell.D then 0 else if w = mx then 1 else -1
    | none => 0
  | fuel' + 1, board, player, mx =>
    match check_winner board with
    | some w => if w = Cell.D then 0 else if w = mx then 1 else -1
    | none =>
      if player = mx then
        ((available_moves board).map
          (fun m => gameValue fuel' (board.set m player) (other player) mx)).foldl max (-2)
      else
        ((available_moves board).map
          (fun m => gameValue fuel' (board.set m player) (other player) mx)).foldl min 2

/-- State-threading version of the maximizing loop: `f` returns the
child's score together with the board state the child call left
behind; the write `board[m] = player` and the restoring write
`board[m] = " "` are performed on the threaded state exactly as in the
source. -/
def maxLoopSt (f : Board → Int → Int → Int × Board) (player : Cell) :
    Board → List Nat → Int → Int → Int → Option Nat → (Int × Option Nat) × Board
  | board, [], _, _, value, best => ((value, best), board)
  | board, m :: ms, alpha, beta, value, best =>
    let r := f (board.set m player) alpha beta
    let board' := r.2.set m Cell.e
    let score := r.1
    let value' := if value < score then score else value
    let best' := if value < score then some m else best
    let alpha' := max alpha value'
    if beta ≤ alpha' then ((value', best'), board')
    else maxLoopSt f player board' ms alpha' beta value' best'

/-- State-threading version of the minimizing loop. -/
def minLoopSt (f : Board → Int → Int → Int × Board) (player : Cell) :
    Board → List Nat → Int → Int → Int → Option Nat → (Int × Option Nat) × Board
  | board, [], _, _, value, best => ((value, best), board)
  | board, m :: ms, alpha, beta, value, best =>
    let r := f (board.set m player) alpha beta
    let board' := r.2.set m Cell.e
    let score := r.1
    let value' := if score < value then score else value
    let best' := if score < value then some m else best
    let beta' := min beta value'
    if beta' ≤ alpha then ((value', best'), board')
    else minLoopSt f player board' ms alpha beta' value' best'

/-- `minimax` with the board mutation modelled explicitly: the returned
board is the state of the (mutated and restored) input board when the
call returns.  `minimaxSt_spec` proves it computes `minimax` and
restores the board. -/
def minimaxSt : Nat → Board → Cell → Cell → Int → Int → (Int × Option Nat) × Board
  | 0, board, _, mx, _, _ =>
    match check_winner board with
    | some w => ((if w = Cell.D then 0 else if w = mx then 1 else -1, none), board)
    | none => ((0, none), board)
  | fuel' + 1, board, player, mx, alpha, beta =>
    match check_winner board with
    | some w => ((if w = Cell.D then 0 else if w = mx then 1 else -1, none), board)
    | none =>
      if player = mx then
        maxLoopSt
          (fun b a bb => ((minimaxSt fuel' b (other player) mx a bb).1.1,
            (minimaxSt fuel' b (other player) mx a bb).2))
          player board (available_moves board) alpha beta (-2) none
      else
        minLoopSt
          (fun b a bb => ((minimaxSt fuel' b (other player) mx a bb).1.1,
            (minimaxSt fuel' b (other player) mx a bb).2))
          player board (available_moves board) alpha beta 2 none

/-- State-threading version of the collection loop of
`best_move_for_ai`. -/
def bmLoopSt (f : Board → Int × Board) (ai : Cell) :
    Board → List Nat → Int → List Nat → (Int × List Nat) × Board
  | board, [], best_score, best_moves => ((best_score, best_moves), board)
  | board, m :: ms, best_score, best_moves =>
    let r := f (board.set m ai)
    let board' := r.2.set m Cell.e
    let s := r.1
    if best_score < s then bmLoopSt f ai board' ms s [m]
    else if s = best_score then bmLoopSt f ai board' ms best_score (best_moves ++ [m])
    else bmLoopSt f ai board' ms best_score best_moves

/-- The tie-set computation of `best_move_for_ai` with the board
mutation modelled explicitly. -/
def best_moves_for_aiSt (fuel : Nat) (board : Board) (ai : Cell) :
    (Int × List Nat) × Board :=
  bmLoopSt
    (fun b => ((minimaxSt fuel b (other ai) ai (-2) 2).1.1,
      (minimaxSt fuel b (other ai) ai (-2) 2).2))
    ai board (available_moves board) (-2) []

/-- Predicate of the spec: some win line entirely filled with the
(non-empty) symbol `s`. -/
def lineFilled (board : Board) (s : Cell) : Prop :=
  s ≠ Cell.e ∧ ∃ l ∈ WIN_LINES, board.getD l.1 Cell.e = s ∧
    board.getD l.2.1 Cell.e = s ∧ board.getD l.2.2 Cell.e = s

instance (board : Board) (s : Cell) : Decidable (lineFilled board s) := by
  unfold lineFilled; infer_instance

/-! ### Certificates for concrete game values

To certify concrete values of `gameValue` without evaluating the whole
game tree, two Bool-valued checkers walk the tree: at the nodes of the
side whose bound is being certified every move is explored, at the
other side's nodes moves are tried in a fixed centre-first order until
one works.  Only their soundness against `gameValue` is proved; the
move order is irrelevant to correctness. -/

/-- Centre-first static move order used by the certificate checkers. -/
def MOVE_ORDER : List Nat := [4, 0, 2, 6, 8, 1, 3, 5, 7]

/-- The index of the empty cell of the line `l`, when its other two
cells hold `p`. -/
def lineThird (board : Board) (p : Cell) (l : Nat × Nat × Nat) : Option Nat :=
  let ca := board.getD l.1 Cell.e
  let cb := board.getD l.2.1 Cell.e
  let cc := board.getD l.2.2 Cell.e
  if ca = p ∧ cb = p ∧ cc = Cell.e then some l.2.2
  else if ca = p ∧ cc = p ∧ cb = Cell.e then some l.2.1
  else if cb = p ∧ cc = p ∧ ca = Cell.e then some l.1
  else none

/-- Squares that would complete a line for `p`. -/
def winSquares (board : Board) (p : Cell) : List Nat :=
  WIN_LINES.filterMap (lineThird board p)

/-- The legal moves for `p`, ordered: immediate wins, then blocks of
the opponent, then the centre-first static order.  Every element is a
legal move (`orderedMoves_subset`). -/
def orderedMoves (board : Board) (p : Cell) : List Nat :=
  let leg := fun i : Nat =>
    decide (i < board.length) && decide (board.getD i Cell.e = Cell.e)
  let ws := (winSquares board p).filter leg
  let bs := (winSquares board (other p)).filter
    (fun i => leg i && !ws.contains i)
  let rest := MOVE_ORDER.filter
    (fun i => leg i && !ws.contains i && !bs.contains i)
  ws ++ bs ++ rest

/-- Certificate checker for `gameValue … ≤ 0`: every move of `mx` is
refuted by some reply. -/
def canLe (mx : Cell) : Nat → Board → Cell → Bool
  | 0, board, _ =>
    match check_winner board with
    | some w => w ≠ mx
    | none => false
  | fuel' + 1, board, p =>
    match check_winner board with
    | some w => w ≠ mx
    | none =>
      if p = mx then
        (available_moves board).all
          (fun m => canLe mx fuel' (board.set m p) (other p))
      else
        (orderedMoves board p).any
          (fun m => canLe mx fuel' (board.set m p) (other p))

/-- Certificate checker for `0 ≤ gameValue …`: every move of the
opponent of `mx` is answered by some reply. -/
def canGe (mx : Cell) : Nat → Board → Cell → Bool
  | 0, board, _ =>
    match check_winner board with
    | some w => w = mx ∨ w = Cell.D
    | none => false
  | fuel' + 1, board, p =>
    match check_winner board with
    | some w => w = mx ∨ w = Cell.D
    | none =>
      if p = mx then
        (orderedMoves board p).any
          (fun m => canGe mx fuel' (board.set m p) (other p))
      else
        (available_moves board).all
          (fun m => canGe mx fuel' (board.set m p) (other p))


/-! ### Basic lemmas on boards and moves -/

theorem mem_available_moves {board : Board} {m : Nat} :
    m ∈ available_moves board ↔ m < board.length ∧ board.getD m Cell.e = Cell.e := by
  simp [available_moves, List.mem_filter, List.mem_range]

theorem getD_set_self : ∀ (b : Board) (m : Nat) (p : Cell), m < b.length →
    (b.set m p).getD m Cell.e = p := by
  intro b
  induction b with
  | nil => intro m p h; simp at h
  | cons c rest ih =>
    intro m p h
    cases m with
    | zero => simp [List.set, List.getD]
    | succ m => simpa [List.set, List.getD] using ih m p (by simpa using h)

theorem getD_set_ne : ∀ (b : Board) (m k : Nat) (p : Cell), m ≠ k →
    (b.set m p).getD k Cell.e = b.getD k Cell.e := by
  intro b
  induction b with
  | nil => intro m k p h; simp [List.set]
  | cons c rest ih =>
    intro m k p h
    cases m with
    | zero =>
      cases k with
      | zero => exact absurd rfl h
      | succ k => simp [List.set, List.getD]
    | succ m =>
      cases k with
      | zero => simp [List.set, List.getD]
      | succ k => simpa [List.set, List.getD] using ih m k p (by omega)

theorem set_getD_self : ∀ (b : Board) (m : Nat), b.getD m Cell.e = Cell.e →
    b.set m Cell.e = b := by
  intro b
  induction b with
  | nil => intro m _; simp [List.set]
  | cons c rest ih =>
    intro m h
    cases m with
    | zero => simpa [List.set, List.getD] using h.symm
    | succ m => simpa [List.set, List.getD] using ih m (by simpa [List.getD] using h)

theorem count_set_e : ∀ (b : Board) (m : Nat) (p : Cell), m < b.length →
    b.getD m Cell.e = Cell.e → p ≠ Cell.e →
    (b.set m p).count Cell.e + 1 = b.count Cell.e := by
  intro b
  induction b with
  | nil => intro m p h; simp at h
  | cons c rest ih =>
    intro m p hm he hp
    cases m with
    | zero =>
      have hc : c = Cell.e := by simpa [List.getD] using he
      simp [List.set, hc, List.count_cons, hp]
    | succ m =>
      have := ih m p (by simpa using hm) (by simpa [List.getD] using he) hp
      simp only [List.set, List.count_cons]
      omega

theorem getD_mem : ∀ (b : Board) (a : Nat), b.getD a Cell.e ≠ Cell.e →
    b.getD a Cell.e ∈ b := by
  intro b
  induction b with
  | nil => intro a h; simp [List.getD] at h
  | cons c rest ih =>
    intro a h
    cases a with
    | zero => simp [List.getD]
    | succ a =>
      simp only [List.getD] at h ⊢
      exact List.mem_cons_of_mem _ (ih a h)

/-! ### Folding `max`/`min` over `Int` lists -/

theorem foldl_max_init : ∀ (l : List Int) (a : Int), a ≤ l.foldl max a := by
  intro l
  induction l with
  | nil => intro a; simp
  | cons x xs ih =>
    intro a
    have := ih (max a x)
    simp only [List.foldl]
    omega

theorem foldl_max_shift : ∀ (l : List Int) (a x : Int),
    l.foldl max (max a x) = max (l.foldl max a) x := by
  intro l
  induction l with
  | nil => intro a x; simp
  | cons y ys ih =>
    intro a x
    simp only [List.foldl]
    rw [show max (max a x) y = max (max a y) x by omega, ih]

theorem foldl_max_mem_le : ∀ (l : List Int) (a x : Int), x ∈ l → x ≤ l.foldl max a := by
  intro l
  induction l with
  | nil => intro a x h; simp at h
  | cons y ys ih =>
    intro a x h
    rcases List.mem_cons.1 h with h | h
    · subst h
      have := foldl_max_init ys (max a x)
      simp only [List.foldl]
      omega
    · exact ih (max a y) x h

theorem foldl_max_le : ∀ (l : List Int) (a c : Int), a ≤ c → (∀ x ∈ l, x ≤ c) →
    l.foldl max a ≤ c := by
  intro l
  induction l with
  | nil => intro a c h _; simpa using h
  | cons y ys ih =>
    intro a c ha hl
    simp only [List.foldl]
    exact ih (max a y) c (by have := hl y (by simp); omega)
      (fun x hx => hl x (List.mem_cons_of_mem _ hx))

theorem foldl_max_attain : ∀ (l : List Int) (a : Int),
    l.foldl max a = a ∨ l.foldl max a ∈ l := by
  intro l
  induction l with
  | nil => intro a; simp
  | cons y ys ih =>
    intro a
    simp only [List.foldl]
    rcases ih (max a y) with h | h
    · rcases le_or_lt y a with hy | hy
      · left; rw [h]; omega
      · right; rw [h, show max a y = y by omega]; exact List.mem_cons_self _ _
    · right; right; exact h

theorem foldl_min_init : ∀ (l : List Int) (a : Int), l.foldl min a ≤ a := by
  intro l
  induction l with
  | nil => intro a; simp
  | cons x xs ih =>
    intro a
    have := ih (min a x)
    simp only [List.foldl]
    omega

theorem foldl_min_shift : ∀ (l : List Int) (a x : Int),
    l.foldl min (min a x) = min (l.foldl min a) x := by
  intro l
  induction l with
  | nil => intro a x; simp
  | cons y ys ih =>
    intro a x
    simp only [List.foldl]
    rw [show min (min a x) y = min (min a y) x by omega, ih]

theorem foldl_min_le_mem : ∀ (l : List Int) (a x : Int), x ∈ l → l.foldl min a ≤ x := by
  intro l
  induction l with
  | nil => intro a x h; simp at h
  | cons y ys ih =>
    intro a x h
    rcases List.mem_cons.1 h with h | h
    · subst h
      have := foldl_min_init ys (min a x)
      simp only [List.foldl]
      omega
    · exact ih (min a y) x h

theorem foldl_min_ge : ∀ (l : List Int) (a c : Int), c ≤ a → (∀ x ∈ l, c ≤ x) →
    c ≤ l.foldl min a := by
  intro l
  induction l with
  | nil => intro a c h _; simpa using h
  | cons y ys ih =>
    intro a c ha hl
    simp only [List.foldl]
    exact ih (min a y) c (by have := hl y (by simp); omega)
      (fun x hx => hl x (List.mem_cons_of_mem _ hx))

theorem foldl_min_attain : ∀ (l : List Int) (a : Int),
    l.foldl min a = a ∨ l.foldl min a ∈ l := by
  intro l
  induction l with
  | nil => intro a; simp
  | cons y ys ih =>
    intro a
    simp only [List.foldl]
    rcases ih (min a y) with h | h
    · rcases le_or_lt a y with hy | hy
      · left; rw [h]; omega
      · right; rw [h, show min a y = y by omega]; exact List.mem_cons_self _ _
    · right; right; exact h

theorem foldl_max_neg : ∀ (l : List Int) (a : Int),
    (l.map (fun x => -x)).foldl max (-a) = -(l.foldl min a) := by
  intro l
  induction l with
  | nil => intro a; simp
  | cons y ys ih =>
    intro a
    simp only [List.map, List.foldl]
    rw [show max (-a) (-y) = -(min a y) by omega, ih]

theorem foldl_min_neg : ∀ (l : List Int) (a : Int),
    (l.map (fun x => -x)).foldl min (-a) = -(l.foldl max a) := by
  intro l
  induction l with
  | nil => intro a; simp
  | cons y ys ih =>
    intro a
    simp only [List.map, List.foldl]
    rw [show min (-a) (-y) = -(max a y) by omega, ih]

/-! ### Unfolding lemmas for the search functions -/

theorem minimax_terminal {board : Board} {w : Cell} (hw : check_winner board = some w)
    (fuel : Nat) (p mx : Cell) (alpha beta : Int) :
    minimax fuel board p mx alpha beta =
      ((if w = Cell.D then 0 else if w = mx then 1 else -1), none) := by
  cases fuel with
  | zero => rw [minimax, hw]
  | succ fuel => rw [minimax, hw]

theorem minimax_fuel0 {board : Board} (hw : check_winner board = none)
    (p mx : Cell) (alpha beta : Int) :
    minimax 0 board p mx alpha beta = (0, none) := by
  rw [minimax, hw]

theorem minimax_succ_max {board : Board} {mx : Cell} (hw : check_winner board = none)
    (fuel : Nat) (alpha beta : Int) :
    minimax (fuel + 1) board mx mx alpha beta =
      maxLoop (fun b a bb => (minimax fuel b (other mx) mx a bb).1)
        board mx (available_moves board) alpha beta (-2) none := by
  rw [minimax, hw]
  simp

theorem minimax_succ_min {board : Board} {p mx : Cell} (hw : check_winner board = none)
    (hp : p ≠ mx) (fuel : Nat) (alpha beta : Int) :
    minimax (fuel + 1) board p mx alpha beta =
      minLoop (fun b a bb => (minimax fuel b (other p) mx a bb).1)
        board p (available_moves board) alpha beta 2 none := by
  rw [minimax, hw]
  simp [hp]

theorem gameValue_terminal {board : Board} {w : Cell} (hw : check_winner board = some w)
    (fuel : Nat) (p mx : Cell) :
    gameValue fuel board p mx = (if w = Cell.D then 0 else if w = mx then 1 else -1) := by
  cases fuel with
  | zero => rw [gameValue, hw]
  | succ fuel => rw [gameValue, hw]

theorem gameValue_fuel0 {board : Board} (hw : check_winner board = none) (p mx : Cell) :
    gameValue 0 board p mx = 0 := by
  rw [gameValue, hw]

theorem gameValue_succ_max {board : Board} {mx : Cell} (hw : check_winner board = none)
    (fuel : Nat) :
    gameValue (fuel + 1) board mx mx =
      ((available_moves board).map
        (fun m => gameValue fuel (board.set m mx) (other mx) mx)).foldl max (-2) := by
  rw [gameValue, hw]
  simp

theorem gameValue_succ_min {board : Board} {p mx : Cell} (hw : check_winner board = none)
    (hp : p ≠ mx) (fuel : Nat) :
    gameValue (fuel + 1) board p mx =
      ((available_moves board).map
        (fun m => gameValue fuel (board.set m p) (other p) mx)).foldl min 2 := by
  rw [gameValue, hw]
  simp [hp]

theorem check_winner_none_mem {board : Board} (h : check_winner board = none) :
    Cell.e ∈ board := by
  unfold check_winner at h
  cases hl : lineWinner board WIN_LINES with
  | some w => rw [hl] at h; simp at h
  | none =>
    rw [hl] at h
    by_cases he : Cell.e ∈ board
    · exact he
    · simp [he] at h

theorem available_moves_ne_nil {board : Board} (h : check_winner board = none) :
    available_moves board ≠ [] := by
  obtain ⟨i, hi, hgi⟩ := List.mem_iff_getElem.1 (check_winner_none_mem h)
  intro hnil
  have hmem : i ∈ available_moves board := by
    refine mem_available_moves.2 ⟨hi, ?_⟩
    rw [List.getD_eq_getElem _ _ hi, hgi]
  rw [hnil] at hmem
  simp at hmem

/-! ### Score range of the loops and of `minimax` -/

theorem maxLoop_fst_ge (f : Board → Int → Int → Int) (board : Board) (player : Cell) :
    ∀ (ms : List Nat) (alpha beta v : Int) (bst : Option Nat),
    v ≤ (maxLoop f board player ms alpha beta v bst).1 := by
  intro ms
  induction ms with
  | nil => intro alpha beta v bst; simp [maxLoop]
  | cons m ms ih =>
    intro alpha beta v bst
    simp only [maxLoop]
    by_cases hv : v < f (board.set m player) alpha beta
    · simp only [hv, if_true]
      by_cases hb : beta ≤ max alpha (f (board.set m player) alpha beta)
      · simp only [hb, if_true]; omega
      · simp only [hb, if_false]
        have := ih (max alpha (f (board.set m player) alpha beta)) beta
          (f (board.set m player) alpha beta) (some m)
        omega
    · simp only [hv, if_false]
      by_cases hb : beta ≤ max alpha v
      · simp only [hb, if_true]; omega
      · simp only [hb, if_false]
        exact ih (max alpha v) beta v bst

theorem maxLoop_fst_le (f : Board → Int → Int → Int) (board : Board) (player : Cell) :
    ∀ (ms : List Nat) (alpha beta v : Int) (bst : Option Nat),
    (∀ m ∈ ms, ∀ a b, f (board.set m player) a b ≤ 1) →
    (maxLoop f board player ms alpha beta v bst).1 ≤ max v 1 := by
  intro ms
  induction ms with
  | nil => intro alpha beta v bst _; simp only [maxLoop]; omega
  | cons m ms ih =>
    intro alpha beta v bst hf
    have hm : f (board.set m player) alpha beta ≤ 1 := hf m (by simp) alpha beta
    have hrest : ∀ m' ∈ ms, ∀ a b, f (board.set m' player) a b ≤ 1 :=
      fun m' hm' => hf m' (List.mem_cons_of_mem _ hm')
    simp only [maxLoop]
    by_cases hv : v < f (board.set m player) alpha beta
    · simp only [hv, if_true]
      by_cases hb : beta ≤ max alpha (f (board.set m player) alpha beta)
      · simp only [hb, if_true]; omega
      · simp only [hb, if_false]
        have := ih (max alpha (f (board.set m player) alpha beta)) beta
          (f (board.set m player) alpha beta) (some m) hrest
        omega
    · simp only [hv, if_false]
      by_cases hb : beta ≤ max alpha v
      · simp only [hb, if_true]; omega
      · simp only [hb, if_false]
        exact ih (max alpha v) beta v bst hrest

theorem minLoop_fst_le (f : Board → Int → Int → Int) (board : Board) (player : Cell) :
    ∀ (ms : List Nat) (alpha beta v : Int) (bst : Option Nat),
    (minLoop f board player ms alpha beta v bst).1 ≤ v := by
  intro ms
  induction ms with
  | nil => intro alpha beta v bst; simp [minLoop]
  | cons m ms ih =>
    intro alpha beta v bst
    simp only [minLoop]
    by_cases hv : f (board.set m player) alpha beta < v
    · simp only [hv, if_true]
      by_cases hb : min beta (f (board.set m player) alpha beta) ≤ alpha
      · simp only [hb, if_true]; omega
      · simp only [hb, if_false]
        have := ih alpha (min beta (f (board.set m player) alpha beta))
          (f (board.set m player) alpha beta) (some m)
        omega
    · simp only [hv, if_false]
      by_cases hb : min beta v ≤ alpha
      · simp only [hb, if_true]; omega
      · simp only [hb, if_false]
        exact ih alpha (min beta v) v bst

theorem minLoop_fst_ge (f : Board → Int → Int → Int) (board : Board) (player : Cell) :
    ∀ (ms : List Nat) (alpha beta v : Int) (bst : Option Nat),
    (∀ m ∈ ms, ∀ a b, -1 ≤ f (board.set m player) a b) →
    min v (-1) ≤ (minLoop f board player ms alpha beta v bst).1 := by
  intro ms
  induction ms with
  | nil => intro alpha beta v bst _; simp only [minLoop]; omega
  | cons m ms ih =>
    intro alpha beta v bst hf
    have hm : -1 ≤ f (board.set m player) alpha beta := hf m (by simp) alpha beta
    have hrest : ∀ m' ∈ ms, ∀ a b, -1 ≤ f (board.set m' player) a b :=
      fun m' hm' => hf m' (List.mem_cons_of_mem _ hm')
    simp only [minLoop]
    by_cases hv : f (board.set m player) alpha beta < v
    · simp only [hv, if_true]
      by_cases hb : min beta (f (board.set m player) alpha beta) ≤ alpha
      · simp only [hb, if_true]; omega
      · simp only [hb, if_false]
        have := ih alpha (min beta (f (board.set m player) alpha beta))
          (f (board.set m player) alpha beta) (some m) hrest
        omega
    · simp only [hv, if_false]
      by_cases hb : min beta v ≤ alpha
      · simp only [hb, if_true]; omega
      · simp only [hb, if_false]
        have := ih alpha (min beta v) v bst hrest
        omega

theorem minimax_score_range : ∀ (fuel : Nat) (board : Board) (p mx : Cell) (alpha beta : Int),
    -1 ≤ (minimax fuel board p mx alpha beta).1 ∧ (minimax fuel board p mx alpha beta).1 ≤ 1 := by
  intro fuel
  induction fuel with
  | zero =>
    intro board p mx alpha beta
    cases hw : check_winner board with
    | some w => rw [minimax_terminal hw]; dsimp; split_ifs <;> omega
    | none => rw [minimax_fuel0 hw]; dsimp; omega
  | succ fuel ih =>
    intro board p mx alpha beta
    cases hw : check_winner board with
    | some w => rw [minimax_terminal hw]; dsimp; split_ifs <;> omega
    | none =>
      by_cases hp : p = mx
      · subst hp
        rw [minimax_succ_max hw]
        cases hmoves : available_moves board with
        | nil => exact absurd hmoves (available_moves_ne_nil hw)
        | cons m0 ms =>
          simp only [maxLoop]
          have hs := ih (board.set m0 p) (other p) p alpha beta
          have hlt : (-2 : Int) < (minimax fuel (board.set m0 p) (other p) p alpha beta).1 := by
            omega
          simp only [if_pos hlt]
          by_cases hb : beta ≤ max alpha (minimax fuel (board.set m0 p) (other p) p alpha beta).1
          · simp only [if_pos hb]; exact hs
          · simp only [if_neg hb]
            constructor
            · have := maxLoop_fst_ge (fun b a bb => (minimax fuel b (other p) p a bb).1) board p
                ms (max alpha (minimax fuel (board.set m0 p) (other p) p alpha beta).1) beta
                (minimax fuel (board.set m0 p) (other p) p alpha beta).1 (some m0)
              omega
            · have := maxLoop_fst_le (fun b a bb => (minimax fuel b (other p) p a bb).1) board p
                ms (max alpha (minimax fuel (board.set m0 p) (other p) p alpha beta).1) beta
                (minimax fuel (board.set m0 p) (other p) p alpha beta).1 (some m0)
                (fun m _ a b => (ih (board.set m p) (other p) p a b).2)
              omega
      · rw [minimax_succ_min hw hp]
        cases hmoves : available_moves board with
        | nil => exact absurd hmoves (available_moves_ne_nil hw)
        | cons m0 ms =>
          simp only [minLoop]
          have hs := ih (board.set m0 p) (other p) mx alpha beta
          have hlt : (minimax fuel (board.set m0 p) (other p) mx alpha beta).1 < (2 : Int) := by
            omega
          simp only [if_pos hlt]
          by_cases hb : min beta (minimax fuel (board.set m0 p) (other p) mx alpha beta).1 ≤ alpha
          · simp only [if_pos hb]; exact hs
          · simp only [if_neg hb]
            constructor
            · have := minLoop_fst_ge (fun b a bb => (minimax fuel b (other p) mx a bb).1) board p
                ms alpha (min beta (minimax fuel (board.set m0 p) (other p) mx alpha beta).1)
                (minimax fuel (board.set m0 p) (other p) mx alpha beta).1 (some m0)
                (fun m _ a b => (ih (board.set m p) (other p) mx a b).1)
              omega
            · have := minLoop_fst_le (fun b a bb => (minimax fuel b (other p) mx a bb).1) board p
                ms alpha (min beta (minimax fuel (board.set m0 p) (other p) mx alpha beta).1)
                (minimax fuel (board.set m0 p) (other p) mx alpha beta).1 (some m0)
              omega

theorem gameValue_range : ∀ (fuel : Nat) (board : Board) (p mx : Cell),
    -1 ≤ gameValue fuel board p mx ∧ gameValue fuel board p mx ≤ 1 := by
  intro fuel
  induction fuel with
  | zero =>
    intro board p mx
    cases hw : check_winner board with
    | some w => rw [gameValue_terminal hw]; split_ifs <;> omega
    | none => rw [gameValue_fuel0 hw]; omega
  | succ fuel ih =>
    intro board p mx
    cases hw : check_winner board with
    | some w => rw [gameValue_terminal hw]; split_ifs <;> omega
    | none =>
      by_cases hp : p = mx
      · subst hp
        rw [gameValue_succ_max hw]
        cases hmoves : available_moves board with
        | nil => exact absurd hmoves (available_moves_ne_nil hw)
        | cons m0 ms =>
          simp only [List.map, List.foldl]
          have h0 := ih (board.set m0 p) (other p) p
          rw [show max (-2) (gameValue fuel (board.set m0 p) (other p) p) =
            gameValue fuel (board.set m0 p) (other p) p by omega]
          constructor
          · have := foldl_max_init (ms.map (fun m => gameValue fuel (board.set m p) (other p) p))
              (gameValue fuel (board.set m0 p) (other p) p)
            omega
          · refine foldl_max_le _ _ _ (by omega) ?_
            intro x hx
            obtain ⟨m, _, rfl⟩ := List.mem_map.1 hx
            exact (ih (board.set m p) (other p) p).2
      · rw [gameValue_succ_min hw hp]
        cases hmoves : available_moves board with
        | nil => exact absurd hmoves (available_moves_ne_nil hw)
        | cons m0 ms =>
          simp only [List.map, List.foldl]
          have h0 := ih (board.set m0 p) (other p) mx
          rw [show min 2 (gameValue fuel (board.set m0 p) (other p) mx) =
            gameValue fuel (board.set m0 p) (other p) mx by omega]
          constructor
          · refine foldl_min_ge _ _ _ (by omega) ?_
            intro x hx
            obtain ⟨m, _, rfl⟩ := List.mem_map.1 hx
            exact (ih (board.set m p) (other p) mx).1
          · have := foldl_min_init (ms.map (fun m => gameValue fuel (board.set m p) (other p) mx))
              (gameValue fuel (board.set m0 p) (other p) mx)
            omega

/-! ### The move returned by the search -/

theorem maxLoop_snd_cases (f : Board → Int → Int → Int) (board : Board) (player : Cell) :
    ∀ (ms : List Nat) (alpha beta v : Int) (bst : Option Nat),
    (maxLoop f board player ms alpha beta v bst).2 = bst ∨
      ∃ m ∈ ms, (maxLoop f board player ms alpha beta v bst).2 = some m := by
  intro ms
  induction ms with
  | nil => intro alpha beta v bst; left; simp [maxLoop]
  | cons m ms ih =>
    intro alpha beta v bst
    simp only [maxLoop]
    by_cases hv : v < f (board.set m player) alpha beta
    · simp only [if_pos hv]
      by_cases hb : beta ≤ max alpha (f (board.set m player) alpha beta)
      · simp only [if_pos hb]
        exact Or.inr ⟨m, by simp, rfl⟩
      · simp only [if_neg hb]
        rcases ih (max alpha (f (board.set m player) alpha beta)) beta
          (f (board.set m player) alpha beta) (some m) with h | ⟨m', hm', h⟩
        · exact Or.inr ⟨m, by simp, h⟩
        · exact Or.inr ⟨m', List.mem_cons_of_mem _ hm', h⟩
    · simp only [if_neg hv]
      by_cases hb : beta ≤ max alpha v
      · simp only [if_pos hb]
        exact Or.inl trivial
      · simp only [if_neg hb]
        rcases ih (max alpha v) beta v bst with h | ⟨m', hm', h⟩
        · exact Or.inl h
        · exact Or.inr ⟨m', List.mem_cons_of_mem _ hm', h⟩

theorem minLoop_snd_cases (f : Board → Int → Int → Int) (board : Board) (player : Cell) :
    ∀ (ms : List Nat) (alpha beta v : Int) (bst : Option Nat),
    (minLoop f board player ms alpha beta v bst).2 = bst ∨
      ∃ m ∈ ms, (minLoop f board player ms alpha beta v bst).2 = some m := by
  intro ms
  induction ms with
  | nil => intro alpha beta v bst; left; simp [minLoop]
  | cons m ms ih =>
    intro alpha beta v bst
    simp only [minLoop]
    by_cases hv : f (board.set m player) alpha beta < v
    · simp only [if_pos hv]
      by_cases hb : min beta (f (board.set m player) alpha beta) ≤ alpha
      · simp only [if_pos hb]
        exact Or.inr ⟨m, by simp, rfl⟩
      · simp only [if_neg hb]
        rcases ih alpha (min beta (f (board.set m player) alpha beta))
          (f (board.set m player) alpha beta) (some m) with h | ⟨m', hm', h⟩
        · exact Or.inr ⟨m, by simp, h⟩
        · exact Or.inr ⟨m', List.mem_cons_of_mem _ hm', h⟩
    · simp only [if_neg hv]
      by_cases hb : min beta v ≤ alpha
      · simp only [if_pos hb]
        exact Or.inl trivial
      · simp only [if_neg hb]
        rcases ih alpha (min beta v) v bst with h | ⟨m', hm', h⟩
        · exact Or.inl h
        · exact Or.inr ⟨m', List.mem_cons_of_mem _ hm', h⟩

theorem minimax_move_nonterminal {board : Board} {p mx : Cell} {alpha beta : Int} {fuel : Nat}
    (hw : check_winner board = none) :
    ∃ m ∈ available_moves board, (minimax (fuel + 1) board p mx alpha beta).2 = some m := by
  by_cases hp : p = mx
  · subst hp
    rw [minimax_succ_max hw]
    cases hmoves : available_moves board with
    | nil => exact absurd hmoves (available_moves_ne_nil hw)
    | cons m0 ms =>
      simp only [maxLoop]
      have hs := minimax_score_range fuel (board.set m0 p) (other p) p alpha beta
      have hlt : (-2 : Int) < (minimax fuel (board.set m0 p) (other p) p alpha beta).1 := by omega
      simp only [if_pos hlt]
      by_cases hb : beta ≤ max alpha (minimax fuel (board.set m0 p) (other p) p alpha beta).1
      · simp only [if_pos hb]
        exact ⟨m0, by simp, rfl⟩
      · simp only [if_neg hb]
        rcases maxLoop_snd_cases (fun b a bb => (minimax fuel b (other p) p a bb).1) board p
          ms (max alpha (minimax fuel (board.set m0 p) (other p) p alpha beta).1) beta
          (minimax fuel (board.set m0 p) (other p) p alpha beta).1 (some m0) with h | ⟨m', hm', h⟩
        · exact ⟨m0, by simp, h⟩
        · exact ⟨m', List.mem_cons_of_mem _ hm', h⟩
  · rw [minimax_succ_min hw hp]
    cases hmoves : available_moves board with
    | nil => exact absurd hmoves (available_moves_ne_nil hw)
    | cons m0 ms =>
      simp only [minLoop]
      have hs := minimax_score_range fuel (board.set m0 p) (other p) mx alpha beta
      have hlt : (minimax fuel (board.set m0 p) (other p) mx alpha beta).1 < (2 : Int) := by omega
      simp only [if_pos hlt]
      by_cases hb : min beta (minimax fuel (board.set m0 p) (other p) mx alpha beta).1 ≤ alpha
      · simp only [if_pos hb]
        exact ⟨m0, by simp, rfl⟩
      · simp only [if_neg hb]
        rcases minLoop_snd_cases (fun b a bb => (minimax fuel b (other p) mx a bb).1) board p
          ms alpha (min beta (minimax fuel (board.set m0 p) (other p) mx alpha beta).1)
          (minimax fuel (board.set m0 p) (other p) mx alpha beta).1 (some m0) with h | ⟨m', hm', h⟩
        · exact ⟨m0, by simp, h⟩
        · exact ⟨m', List.mem_cons_of_mem _ hm', h⟩

/-! ### Fail-soft alpha-beta correctness (Knuth-Moore bounds) -/

/-- The fail-soft relation between the score `s` returned by a pruned
search with window `(a, b)` and the true value `v`: a fail-low result
is an upper bound, a fail-high result a lower bound, and a result
inside the window is exact. -/
def KM (s v a b : Int) : Prop :=
  (s ≤ a → v ≤ s) ∧ (a < s → s < b → s = v) ∧ (b ≤ s → s ≤ v)

theorem maxLoop_KM (f : Board → Int → Int → Int) (g : Board → Int)
    (board : Board) (player : Cell) (beta : Int) :
    ∀ (ms : List Nat) (alpha value : Int) (bst : Option Nat),
    alpha < beta →
    (∀ m ∈ ms, ∀ a, a < beta →
      KM (f (board.set m player) a beta) (g (board.set m player)) a beta) →
    value ≤ (maxLoop f board player ms alpha beta value bst).1 ∧
      KM (maxLoop f board player ms alpha beta value bst).1
        ((ms.map (fun m => g (board.set m player))).foldl max value) alpha beta := by
  intro ms
  induction ms with
  | nil =>
    intro alpha value bst halpha _
    simp only [maxLoop, List.map, List.foldl]
    exact ⟨le_refl _, fun _ => le_refl _, fun _ _ => rfl, fun _ => le_refl _⟩
  | cons m ms ih =>
    intro alpha value bst halpha hfg
    obtain ⟨k1, k2, k3⟩ := hfg m (by simp) alpha halpha
    have hfgrest : ∀ m' ∈ ms, ∀ a, a < beta →
        KM (f (board.set m' player) a beta) (g (board.set m' player)) a beta :=
      fun m' hm' => hfg m' (List.mem_cons_of_mem _ hm')
    simp only [maxLoop, List.map, List.foldl]
    rw [foldl_max_shift]
    have hW := foldl_max_init (ms.map (fun m' => g (board.set m' player))) value
    by_cases hv : value < f (board.set m player) alpha beta
    · simp only [if_pos hv]
      by_cases hb : beta ≤ max alpha (f (board.set m player) alpha beta)
      · simp only [if_pos hb]
        rcases le_or_lt (f (board.set m player) alpha beta) alpha with hsa | hsa
        · have := k1 hsa; exact ⟨by omega, by omega, by omega, by omega⟩
        · rcases lt_or_le (f (board.set m player) alpha beta) beta with hsb | hsb
          · have := k2 hsa hsb; exact ⟨by omega, by omega, by omega, by omega⟩
          · have := k3 hsb; exact ⟨by omega, by omega, by omega, by omega⟩
      · simp only [if_neg hb]
        have halpha' : max alpha (f (board.set m player) alpha beta) < beta := by omega
        obtain ⟨ihle, i1, i2, i3⟩ :=
          ih (max alpha (f (board.set m player) alpha beta))
            (f (board.set m player) alpha beta) (some m) halpha' hfgrest
        have hms : max value (f (board.set m player) alpha beta) =
            f (board.set m player) alpha beta := max_eq_right (le_of_lt hv)
        rw [show ((ms.map (fun m' => g (board.set m' player))).foldl max
              (f (board.set m player) alpha beta)) =
            max ((ms.map (fun m' => g (board.set m' player))).foldl max value)
              (f (board.set m player) alpha beta) by rw [← foldl_max_shift, hms]]
          at i1 i2 i3
        rcases le_or_lt
            (maxLoop f board player ms
              (max alpha (f (board.set m player) alpha beta)) beta
              (f (board.set m player) alpha beta) (some m)).1
            (max alpha (f (board.set m player) alpha beta)) with hr | hr
        · have hi := i1 hr
          rcases le_or_lt (f (board.set m player) alpha beta) alpha with hsa | hsa
          · have := k1 hsa; exact ⟨by omega, by omega, by omega, by omega⟩
          · rcases lt_or_le (f (board.set m player) alpha beta) beta with hsb | hsb
            · have := k2 hsa hsb; exact ⟨by omega, by omega, by omega, by omega⟩
            · have := k3 hsb; exact ⟨by omega, by omega, by omega, by omega⟩
        · rcases lt_or_le
              (maxLoop f board player ms
                (max alpha (f (board.set m player) alpha beta)) beta
                (f (board.set m player) alpha beta) (some m)).1 beta with hr2 | hr2
          · have hi := i2 hr hr2
            rcases le_or_lt (f (board.set m player) alpha beta) alpha with hsa | hsa
            · have := k1 hsa; exact ⟨by omega, by omega, by omega, by omega⟩
            · rcases lt_or_le (f (board.set m player) alpha beta) beta with hsb | hsb
              · have := k2 hsa hsb; exact ⟨by omega, by omega, by omega, by omega⟩
              · have := k3 hsb; exact ⟨by omega, by omega, by omega, by omega⟩
          · have hi := i3 hr2
            rcases le_or_lt (f (board.set m player) alpha beta) alpha with hsa | hsa
            · have := k1 hsa; exact ⟨by omega, by omega, by omega, by omega⟩
            · rcases lt_or_le (f (board.set m player) alpha beta) beta with hsb | hsb
              · have := k2 hsa hsb; exact ⟨by omega, by omega, by omega, by omega⟩
              · have := k3 hsb; exact ⟨by omega, by omega, by omega, by omega⟩
    · simp only [if_neg hv]
      by_cases hb : beta ≤ max alpha value
      · simp only [if_pos hb]
        rcases le_or_lt (f (board.set m player) alpha beta) alpha with hsa | hsa
        · have := k1 hsa; exact ⟨by omega, by omega, by omega, by omega⟩
        · rcases lt_or_le (f (board.set m player) alpha beta) beta with hsb | hsb
          · have := k2 hsa hsb; exact ⟨by omega, by omega, by omega, by omega⟩
          · have := k3 hsb; exact ⟨by omega, by omega, by omega, by omega⟩
      · simp only [if_neg hb]
        have halpha' : max alpha value < beta := by omega
        obtain ⟨ihle, i1, i2, i3⟩ := ih (max alpha value) value bst halpha' hfgrest
        rcases le_or_lt
            (maxLoop f board player ms (max alpha value) beta value bst).1
            (max alpha value) with hr | hr
        · have hi := i1 hr
          rcases le_or_lt (f (board.set m player) alpha beta) alpha with hsa | hsa
          · have := k1 hsa; exact ⟨by omega, by omega, by omega, by omega⟩
          · rcases lt_or_le (f (board.set m player) alpha beta) beta with hsb | hsb
            · have := k2 hsa hsb; exact ⟨by omega, by omega, by omega, by omega⟩
            · have := k3 hsb; exact ⟨by omega, by omega, by omega, by omega⟩
        · rcases lt_or_le
              (maxLoop f board player ms (max alpha value) beta value bst).1 beta with hr2 | hr2
          · have hi := i2 hr hr2
            rcases le_or_lt (f (board.set m player) alpha beta) alpha with hsa | hsa
            · have := k1 hsa; exact ⟨by omega, by omega, by omega, by omega⟩
            · rcases lt_or_le (f (board.set m player) alpha beta) beta with hsb | hsb
              · have := k2 hsa hsb; exact ⟨by omega, by omega, by omega, by omega⟩
              · have := k3 hsb; exact ⟨by omega, by omega, by omega, by omega⟩
          · have hi := i3 hr2
            rcases le_or_lt (f (board.set m player) alpha beta) alpha with hsa | hsa
            · have := k1 hsa; exact ⟨by omega, by omega, by omega, by omega⟩
            · rcases lt_or_le (f (board.set m player) alpha beta) beta with hsb | hsb
              · have := k2 hsa hsb; exact ⟨by omega, by omega, by omega, by omega⟩
              · have := k3 hsb; exact ⟨by omega, by omega, by omega, by omega⟩

theorem minLoop_KM (f : Board → Int → Int → Int) (g : Board → Int)
    (board : Board) (player : Cell) (alpha : Int) :
    ∀ (ms : List Nat) (beta value : Int) (bst : Option Nat),
    alpha < beta →
    (∀ m ∈ ms, ∀ b, alpha < b →
      KM (f (board.set m player) alpha b) (g (board.set m player)) alpha b) →
    (minLoop f board player ms alpha beta value bst).1 ≤ value ∧
      KM (minLoop f board player ms alpha beta value bst).1
        ((ms.map (fun m => g (board.set m player))).foldl min value) alpha beta := by
  intro ms
  induction ms with
  | nil =>
    intro beta value bst halpha _
    simp only [minLoop, List.map, List.foldl]
    exact ⟨le_refl _, fun _ => le_refl _, fun _ _ => rfl, fun _ => le_refl _⟩
  | cons m ms ih =>
    intro beta value bst halpha hfg
    obtain ⟨k1, k2, k3⟩ := hfg m (by simp) beta halpha
    have hfgrest : ∀ m' ∈ ms, ∀ b, alpha < b →
        KM (f (board.set m' player) alpha b) (g (board.set m' player)) alpha b :=
      fun m' hm' => hfg m' (List.mem_cons_of_mem _ hm')
    simp only [minLoop, List.map, List.foldl]
    rw [foldl_min_shift]
    have hW := foldl_min_init (ms.map (fun m' => g (board.set m' player))) value
    by_cases hv : f (board.set m player) alpha beta < value
    · simp only [if_pos hv]
      by_cases hb : min beta (f (board.set m player) alpha beta) ≤ alpha
      · simp only [if_pos hb]
        rcases le_or_lt (f (board.set m player) alpha beta) alpha with hsa | hsa
        · have := k1 hsa; exact ⟨by omega, by omega, by omega, by omega⟩
        · rcases lt_or_le (f (board.set m player) alpha beta) beta with hsb | hsb
          · have := k2 hsa hsb; exact ⟨by omega, by omega, by omega, by omega⟩
          · have := k3 hsb; exact ⟨by omega, by omega, by omega, by omega⟩
      · simp only [if_neg hb]
        have hbeta' : alpha < min beta (f (board.set m player) alpha beta) := by omega
        obtain ⟨ihle, i1, i2, i3⟩ :=
          ih (min beta (f (board.set m player) alpha beta))
            (f (board.set m player) alpha beta) (some m) hbeta' hfgrest
        have hms : min value (f (board.set m player) alpha beta) =
            f (board.set m player) alpha beta := min_eq_right (le_of_lt hv)
        rw [show ((ms.map (fun m' => g (board.set m' player))).foldl min
              (f (board.set m player) alpha beta)) =
            min ((ms.map (fun m' => g (board.set m' player))).foldl min value)
              (f (board.set m player) alpha beta) by rw [← foldl_min_shift, hms]]
          at i1 i2 i3
        rcases le_or_lt
            (minLoop f board player ms alpha
              (min beta (f (board.set m player) alpha beta))
              (f (board.set m player) alpha beta) (some m)).1 alpha with hr | hr
        · have hi := i1 hr
          rcases le_or_lt (f (board.set m player) alpha beta) alpha with hsa | hsa
          · have := k1 hsa; exact ⟨by omega, by omega, by omega, by omega⟩
          · rcases lt_or_le (f (board.set m player) alpha beta) beta with hsb | hsb
            · have := k2 hsa hsb; exact ⟨by omega, by omega, by omega, by omega⟩
            · have := k3 hsb; exact ⟨by omega, by omega, by omega, by omega⟩
        · rcases lt_or_le
              (minLoop f board player ms alpha
                (min beta (f (board.set m player) alpha beta))
                (f (board.set m player) alpha beta) (some m)).1
              (min beta (f (board.set m player) alpha beta)) with hr2 | hr2
          · have hi := i2 hr hr2
            rcases le_or_lt (f (board.set m player) alpha beta) alpha with hsa | hsa
            · have := k1 hsa; exact ⟨by omega, by omega, by omega, by omega⟩
            · rcases lt_or_le (f (board.set m player) alpha beta) beta with hsb | hsb
              · have := k2 hsa hsb; exact ⟨by omega, by omega, by omega, by omega⟩
              · have := k3 hsb; exact ⟨by omega, by omega, by omega, by omega⟩
          · have hi := i3 hr2
            rcases le_or_lt (f (board.set m player) alpha beta) alpha with hsa | hsa
            · have := k1 hsa; exact ⟨by omega, by omega, by omega, by omega⟩
            · rcases lt_or_le (f (board.set m player) alpha beta) beta with hsb | hsb
              · have := k2 hsa hsb; exact ⟨by omega, by omega, by omega, by omega⟩
              · have := k3 hsb; exact ⟨by omega, by omega, by omega, by omega⟩
    · simp only [if_neg hv]
      by_cases hb : min beta value ≤ alpha
      · simp only [if_pos hb]
        rcases le_or_lt (f (board.set m player) alpha beta) alpha with hsa | hsa
        · have := k1 hsa; exact ⟨by omega, by omega, by omega, by omega⟩
        · rcases lt_or_le (f (board.set m player) alpha beta) beta with hsb | hsb
          · have := k2 hsa hsb; exact ⟨by omega, by omega, by omega, by omega⟩
          · have := k3 hsb; exact ⟨by omega, by omega, by omega, by omega⟩
      · simp only [if_neg hb]
        have hbeta' : alpha < min beta value := by omega
        obtain ⟨ihle, i1, i2, i3⟩ := ih (min beta value) value bst hbeta' hfgrest
        rcases le_or_lt
            (minLoop f board player ms alpha (min beta value) value bst).1 alpha with hr | hr
        · have hi := i1 hr
          rcases le_or_lt (f (board.set m player) alpha beta) alpha with hsa | hsa
          · have := k1 hsa; exact ⟨by omega, by omega, by omega, by omega⟩
          · rcases lt_or_le (f (board.set m player) alpha beta) beta with hsb | hsb
            · have := k2 hsa hsb; exact ⟨by omega, by omega, by omega, by omega⟩
            · have := k3 hsb; exact ⟨by omega, by omega, by omega, by omega⟩
        · rcases lt_or_le
              (minLoop f board player ms alpha (min beta value) value bst).1
              (min beta value) with hr2 | hr2
          · have hi := i2 hr hr2
            rcases le_or_lt (f (board.set m player) alpha beta) alpha with hsa | hsa
            · have := k1 hsa; exact ⟨by omega, by omega, by omega, by omega⟩
            · rcases lt_or_le (f (board.set m player) alpha beta) beta with hsb | hsb
              · have := k2 hsa hsb; exact ⟨by omega, by omega, by omega, by omega⟩
              · have := k3 hsb; exact ⟨by omega, by omega, by omega, by omega⟩
          · have hi := i3 hr2
            rcases le_or_lt (f (board.set m player) alpha beta) alpha with hsa | hsa
            · have := k1 hsa; exact ⟨by omega, by omega, by omega, by omega⟩
            · rcases lt_or_le (f (board.set m player) alpha beta) beta with hsb | hsb
              · have := k2 hsa hsb; exact ⟨by omega, by omega, by omega, by omega⟩
              · have := k3 hsb; exact ⟨by omega, by omega, by omega, by omega⟩

theorem minimax_KM : ∀ (fuel : Nat) (board : Board) (p mx : Cell) (alpha beta : Int),
    alpha < beta →
    KM (minimax fuel board p mx alpha beta).1 (gameValue fuel board p mx) alpha beta := by
  intro fuel
  induction fuel with
  | zero =>
    intro board p mx alpha beta h
    cases hw : check_winner board with
    | some w =>
      rw [minimax_terminal hw, gameValue_terminal hw]
      exact ⟨fun _ => le_refl _, fun _ _ => rfl, fun _ => le_refl _⟩
    | none =>
      rw [minimax_fuel0 hw, gameValue_fuel0 hw]
      exact ⟨fun _ => le_refl _, fun _ _ => rfl, fun _ => le_refl _⟩
  | succ fuel ih =>
    intro board p mx alpha beta h
    cases hw : check_winner board with
    | some w =>
      rw [minimax_terminal hw, gameValue_terminal hw]
      exact ⟨fun _ => le_refl _, fun _ _ => rfl, fun _ => le_refl _⟩
    | none =>
      by_cases hp : p = mx
      · subst hp
        rw [minimax_succ_max hw, gameValue_succ_max hw]
        exact (maxLoop_KM (fun b a bb => (minimax fuel b (other p) p a bb).1)
          (fun b => gameValue fuel b (other p) p) board p beta
          (available_moves board) alpha (-2) none h
          (fun m _ a ha => ih (board.set m p) (other p) p a beta ha)).2
      · rw [minimax_succ_min hw hp, gameValue_succ_min hw hp]
        exact (minLoop_KM (fun b a bb => (minimax fuel b (other p) mx a bb).1)
          (fun b => gameValue fuel b (other p) mx) board p alpha
          (available_moves board) beta 2 none h
          (fun m _ b hb => ih (board.set m p) (other p) mx alpha b hb)).2

/-- With the default full window the pruned search computes the exact
game value. -/
theorem minimax_exact (fuel : Nat) (board : Board) (p mx : Cell) :
    (minimax fuel board p mx (-2) 2).1 = gameValue fuel board p mx := by
  have hkm := minimax_KM fuel board p mx (-2) 2 (by omega)
  have hr := minimax_score_range fuel board p mx (-2) 2
  exact hkm.2.1 (by omega) (by omega)

/-! ### Fuel irrelevance -/

theorem other_XO (p : Cell) : other p = Cell.X ∨ other p = Cell.O := by
  unfold other
  split_ifs
  · right; rfl
  · left; rfl

theorem other_ne_e (p : Cell) : other p ≠ Cell.e := by
  rcases other_XO p with h | h <;> simp [h]

theorem maxLoop_congr (f f' : Board → Int → Int → Int) (board : Board) (player : Cell) :
    ∀ (ms : List Nat),
    (∀ m ∈ ms, ∀ a b, f (board.set m player) a b = f' (board.set m player) a b) →
    ∀ (alpha beta value : Int) (bst : Option Nat),
    maxLoop f board player ms alpha beta value bst =
      maxLoop f' board player ms alpha beta value bst := by
  intro ms
  induction ms with
  | nil => intro _ alpha beta value bst; rfl
  | cons m ms ih =>
    intro h alpha beta value bst
    have hm := h m (by simp) alpha beta
    simp only [maxLoop, hm]
    by_cases hb : beta ≤ max alpha
        (if value < f' (board.set m player) alpha beta
          then f' (board.set m player) alpha beta else value)
    · simp only [if_pos hb]
    · simp only [if_neg hb]
      exact ih (fun m' hm' => h m' (List.mem_cons_of_mem _ hm')) _ _ _ _

theorem minLoop_congr (f f' : Board → Int → Int → Int) (board : Board) (player : Cell) :
    ∀ (ms : List Nat),
    (∀ m ∈ ms, ∀ a b, f (board.set m player) a b = f' (board.set m player) a b) →
    ∀ (alpha beta value : Int) (bst : Option Nat),
    minLoop f board player ms alpha beta value bst =
      minLoop f' board player ms alpha beta value bst := by
  intro ms
  induction ms with
  | nil => intro _ alpha beta value bst; rfl
  | cons m ms ih =>
    intro h alpha beta value bst
    have hm := h m (by simp) alpha beta
    simp only [minLoop, hm]
    by_cases hb : min beta
        (if f' (board.set m player) alpha beta < value
          then f' (board.set m player) alpha beta else value) ≤ alpha
    · simp only [if_pos hb]
    · simp only [if_neg hb]
      exact ih (fun m' hm' => h m' (List.mem_cons_of_mem _ hm')) _ _ _ _

theorem count_pos_of_none {board : Board} (hw : check_winner board = none) :
    1 ≤ board.count Cell.e := by
  have hm := check_winner_none_mem hw
  by_contra hc
  have h0 : board.count Cell.e = 0 := by omega
  exact (List.count_eq_zero.1 h0) hm

theorem count_set_lt {board : Board} {m : Nat} {p : Cell}
    (hm : m ∈ available_moves board) (hp : p ≠ Cell.e) :
    (board.set m p).count Cell.e + 1 = board.count Cell.e := by
  obtain ⟨h1, h2⟩ := mem_available_moves.1 hm
  exact count_set_e board m p h1 h2 hp

theorem minimax_fuel_irrel : ∀ (f1 f2 : Nat) (board : Board) (p mx : Cell) (alpha beta : Int),
    p ≠ Cell.e → board.count Cell.e ≤ f1 → board.count Cell.e ≤ f2 →
    minimax f1 board p mx alpha beta = minimax f2 board p mx alpha beta := by
  intro f1
  induction f1 with
  | zero =>
    intro f2 board p mx alpha beta hp h1 h2
    cases hw : check_winner board with
    | some w => rw [minimax_terminal hw, minimax_terminal hw]
    | none =>
      have := count_pos_of_none hw
      omega
  | succ f1 ih =>
    intro f2 board p mx alpha beta hp h1 h2
    cases hw : check_winner board with
    | some w => rw [minimax_terminal hw, minimax_terminal hw]
    | none =>
      have hc := count_pos_of_none hw
      cases f2 with
      | zero => omega
      | succ f2 =>
        have hrec : ∀ m ∈ available_moves board, ∀ a b,
            (minimax f1 (board.set m p) (other p) mx a b).1 =
              (minimax f2 (board.set m p) (other p) mx a b).1 := by
          intro m hm a b
          have hcnt := count_set_lt hm hp
          rw [ih f2 (board.set m p) (other p) mx a b (other_ne_e p)
            (by omega) (by omega)]
        by_cases hpmx : p = mx
        · subst hpmx
          rw [minimax_succ_max hw, minimax_succ_max hw]
          exact maxLoop_congr _ _ board p (available_moves board) hrec alpha beta (-2) none
        · rw [minimax_succ_min hw hpmx, minimax_succ_min hw hpmx]
          exact minLoop_congr _ _ board p (available_moves board) hrec alpha beta 2 none

theorem gameValue_fuel_irrel : ∀ (f1 f2 : Nat) (board : Board) (p mx : Cell),
    p ≠ Cell.e → board.count Cell.e ≤ f1 → board.count Cell.e ≤ f2 →
    gameValue f1 board p mx = gameValue f2 board p mx := by
  intro f1
  induction f1 with
  | zero =>
    intro f2 board p mx hp h1 h2
    cases hw : check_winner board with
    | some w => rw [gameValue_terminal hw, gameValue_terminal hw]
    | none =>
      have := count_pos_of_none hw
      omega
  | succ f1 ih =>
    intro f2 board p mx hp h1 h2
    cases hw : check_winner board with
    | some w => rw [gameValue_terminal hw, gameValue_terminal hw]
    | none =>
      have hc := count_pos_of_none hw
      cases f2 with
      | zero => omega
      | succ f2 =>
        have hrec : ∀ m ∈ available_moves board,
            gameValue f1 (board.set m p) (other p) mx =
              gameValue f2 (board.set m p) (other p) mx := by
          intro m hm
          have hcnt := count_set_lt hm hp
          exact ih f2 (board.set m p) (other p) mx (other_ne_e p) (by omega) (by omega)
        by_cases hpmx : p = mx
        · subst hpmx
          rw [gameValue_succ_max hw, gameValue_succ_max hw,
            List.map_congr_left hrec]
        · rw [gameValue_succ_min hw hpmx, gameValue_succ_min hw hpmx,
            List.map_congr_left hrec]

/-! ### The state-threading search restores the board and computes
`minimax` -/

theorem set_set_e {board : Board} {m : Nat} (h : board.getD m Cell.e = Cell.e)
    (p : Cell) : (board.set m p).set m Cell.e = board := by
  rw [List.set_set]
  exact set_getD_self board m h

theorem maxLoopSt_spec (f : Board → Int → Int → Int × Board)
    (g : Board → Int → Int → Int) (player : Cell) :
    ∀ (ms : List Nat) (board : Board),
    (∀ b a bb, (f b a bb).1 = g b a bb ∧ (f b a bb).2 = b) →
    (∀ m ∈ ms, board.getD m Cell.e = Cell.e) →
    ∀ (alpha beta value : Int) (bst : Option Nat),
    maxLoopSt f player board ms alpha beta value bst =
      (maxLoop g board player ms alpha beta value bst, board) := by
  intro ms
  induction ms with
  | nil => intro board _ _ alpha beta value bst; rfl
  | cons m ms ih =>
    intro board hfg hms alpha beta value bst
    obtain ⟨hf1, hf2⟩ := hfg (board.set m player) alpha beta
    simp only [maxLoopSt, maxLoop, hf1, hf2, set_set_e (hms m (by simp)) player]
    by_cases hb : beta ≤ max alpha
        (if value < g (board.set m player) alpha beta
          then g (board.set m player) alpha beta else value)
    · simp only [if_pos hb]
    · simp only [if_neg hb]
      exact ih board hfg (fun m' hm' => hms m' (List.mem_cons_of_mem _ hm')) _ _ _ _

theorem minLoopSt_spec (f : Board → Int → Int → Int × Board)
    (g : Board → Int → Int → Int) (player : Cell) :
    ∀ (ms : List Nat) (board : Board),
    (∀ b a bb, (f b a bb).1 = g b a bb ∧ (f b a bb).2 = b) →
    (∀ m ∈ ms, board.getD m Cell.e = Cell.e) →
    ∀ (alpha beta value : Int) (bst : Option Nat),
    minLoopSt f player board ms alpha beta value bst =
      (minLoop g board player ms alpha beta value bst, board) := by
  intro ms
  induction ms with
  | nil => intro board _ _ alpha beta value bst; rfl
  | cons m ms ih =>
    intro board hfg hms alpha beta value bst
    obtain ⟨hf1, hf2⟩ := hfg (board.set m player) alpha beta
    simp only [minLoopSt, minLoop, hf1, hf2, set_set_e (hms m (by simp)) player]
    by_cases hb : min beta
        (if g (board.set m player) alpha beta < value
          then g (board.set m player) alpha beta else value) ≤ alpha
    · simp only [if_pos hb]
    · simp only [if_neg hb]
      exact ih board hfg (fun m' hm' => hms m' (List.mem_cons_of_mem _ hm')) _ _ _ _

theorem minimaxSt_spec : ∀ (fuel : Nat) (board : Board) (p mx : Cell) (alpha beta : Int),
    minimaxSt fuel board p mx alpha beta = (minimax fuel board p mx alpha beta, board) := by
  intro fuel
  induction fuel with
  | zero =>
    intro board p mx alpha beta
    cases hw : check_winner board with
    | some w => rw [minimaxSt, minimax, hw]
    | none => rw [minimaxSt, minimax, hw]
  | succ fuel ih =>
    intro board p mx alpha beta
    cases hw : check_winner board with
    | some w => rw [minimaxSt, minimax, hw]
    | none =>
      rw [minimaxSt, minimax, hw]
      have hfg : ∀ (b : Board) (a bb : Int),
          (((minimaxSt fuel b (other p) mx a bb).1.1,
            (minimaxSt fuel b (other p) mx a bb).2) : Int × Board).1 =
            (minimax fuel b (other p) mx a bb).1 ∧
          (((minimaxSt fuel b (other p) mx a bb).1.1,
            (minimaxSt fuel b (other p) mx a bb).2) : Int × Board).2 = b := by
        intro b a bb
        rw [ih b (other p) mx a bb]
        exact ⟨rfl, rfl⟩
      have hms : ∀ m ∈ available_moves board, board.getD m Cell.e = Cell.e :=
        fun m hm => (mem_available_moves.1 hm).2
      by_cases hp : p = mx
      · simp only [if_pos hp]
        exact maxLoopSt_spec _ _ p (available_moves board) board hfg hms alpha beta (-2) none
      · simp only [if_neg hp]
        exact minLoopSt_spec _ _ p (available_moves board) board hfg hms alpha beta 2 none

theorem bmLoopSt_spec (f : Board → Int × Board) (g : Nat → Int) (ai : Cell) :
    ∀ (ms : List Nat) (board : Board),
    (∀ m ∈ ms, (f (board.set m ai)).1 = g m ∧ (f (board.set m ai)).2 = board.set m ai) →
    (∀ m ∈ ms, board.getD m Cell.e = Cell.e) →
    ∀ (bs : Int) (bl : List Nat),
    bmLoopSt f ai board ms bs bl = (bmLoop g ms bs bl, board) := by
  intro ms
  induction ms with
  | nil => intro board _ _ bs bl; rfl
  | cons m ms ih =>
    intro board hfg hms bs bl
    obtain ⟨hf1, hf2⟩ := hfg m (by simp)
    simp only [bmLoopSt, bmLoop, hf1, hf2, set_set_e (hms m (by simp)) ai]
    have hfg' : ∀ m' ∈ ms, (f (board.set m' ai)).1 = g m' ∧
        (f (board.set m' ai)).2 = board.set m' ai :=
      fun m' hm' => hfg m' (List.mem_cons_of_mem _ hm')
    have hms' : ∀ m' ∈ ms, board.getD m' Cell.e = Cell.e :=
      fun m' hm' => hms m' (List.mem_cons_of_mem _ hm')
    by_cases h1 : bs < g m
    · simp only [if_pos h1]
      exact ih board hfg' hms' _ _
    · simp only [if_neg h1]
      by_cases h2 : g m = bs
      · simp only [if_pos h2]
        exact ih board hfg' hms' _ _
      · simp only [if_neg h2]
        exact ih board hfg' hms' _ _

theorem best_moves_for_aiSt_spec (fuel : Nat) (board : Board) (ai : Cell) :
    best_moves_for_aiSt fuel board ai =
      ((bmLoop (fun m => (minimax fuel (board.set m ai) (other ai) ai (-2) 2).1)
        (available_moves board) (-2) []), board) := by
  unfold best_moves_for_aiSt
  refine bmLoopSt_spec _ _ ai (available_moves board) board ?_ ?_ (-2) []
  · intro m _
    rw [minimaxSt_spec]
    exact ⟨rfl, rfl⟩
  · exact fun m hm => (mem_available_moves.1 hm).2

/-! ### The tie set is the argmax set -/

theorem bmLoop_spec (score : Nat → Int) :
    ∀ (ms : List Nat) (bs : Int) (bl : List Nat),
    (bmLoop score ms bs bl).1 = (ms.map score).foldl max bs ∧
    (bmLoop score ms bs bl).2 =
      (if bs = (ms.map score).foldl max bs then bl else []) ++
        ms.filter (fun m => score m = (ms.map score).foldl max bs) := by
  intro ms
  induction ms with
  | nil =>
    intro bs bl
    simp [bmLoop]
  | cons m ms ih =>
    intro bs bl
    simp only [bmLoop, List.map, List.foldl, List.filter_cons]
    by_cases h1 : bs < score m
    · simp only [if_pos h1]
      have hmax : max bs (score m) = score m := max_eq_right (le_of_lt h1)
      simp only [hmax]
      obtain ⟨ia, ib⟩ := ih (score m) [m]
      have hM := foldl_max_init (ms.map score) (score m)
      refine ⟨ia, ?_⟩
      rw [ib, if_neg (by omega : ¬ bs = (ms.map score).foldl max (score m))]
      by_cases hs : score m = (ms.map score).foldl max (score m)
      · rw [if_pos hs, if_pos (show decide (score m =
          (ms.map score).foldl max (score m)) = true by simpa using hs)]
        simp
      · rw [if_neg hs, if_neg (show ¬ decide (score m =
          (ms.map score).foldl max (score m)) = true by simpa using hs)]
    · simp only [if_neg h1]
      by_cases h2 : score m = bs
      · simp only [if_pos h2]
        have hmax : max bs (score m) = bs := by omega
        simp only [hmax]
        obtain ⟨ia, ib⟩ := ih bs (bl ++ [m])
        refine ⟨ia, ?_⟩
        rw [ib]
        by_cases hb : bs = (ms.map score).foldl max bs
        · rw [if_pos hb, if_pos hb, if_pos (show decide (score m =
            (ms.map score).foldl max bs) = true by
              simp only [decide_eq_true_eq, h2]; exact hb)]
          simp
        · rw [if_neg hb, if_neg hb, if_neg (show ¬ decide (score m =
            (ms.map score).foldl max bs) = true by
              simp only [decide_eq_true_eq, h2]; exact hb)]
      · simp only [if_neg h2]
        have hmax : max bs (score m) = bs := by omega
        simp only [hmax]
        obtain ⟨ia, ib⟩ := ih bs bl
        have hM := foldl_max_init (ms.map score) bs
        refine ⟨ia, ?_⟩
        rw [ib, if_neg (show ¬ decide (score m =
          (ms.map score).foldl max bs) = true by
            simp only [decide_eq_true_eq]; omega)]

/-- The score `best_move_for_ai` assigns to a candidate move: minimax
on the board with the move applied, full window. -/
def aiScore (fuel : Nat) (board : Board) (ai : Cell) (m : Nat) : Int :=
  (minimax fuel (board.set m ai) (other ai) ai (-2) 2).1

/-- The maximal candidate score. -/
def aiTopScore (fuel : Nat) (board : Board) (ai : Cell) : Int :=
  ((available_moves board).map (fun m => aiScore fuel board ai m)).foldl max (-2)

theorem best_moves_eq_filter (fuel : Nat) (board : Board) (ai : Cell) :
    best_moves_for_ai fuel board ai =
      (available_moves board).filter
        (fun m => aiScore fuel board ai m = aiTopScore fuel board ai) := by
  unfold best_moves_for_ai aiScore aiTopScore
  obtain ⟨_, h2⟩ := bmLoop_spec
    (fun m => (minimax fuel (board.set m ai) (other ai) ai (-2) 2).1)
    (available_moves board) (-2) []
  rw [h2]
  split_ifs <;> rfl

theorem mem_best_moves {fuel : Nat} {board : Board} {ai : Cell} {m : Nat} :
    m ∈ best_moves_for_ai fuel board ai ↔
      m ∈ available_moves board ∧
        aiScore fuel board ai m = aiTopScore fuel board ai := by
  rw [best_moves_eq_filter]
  simp [List.mem_filter]

theorem aiScore_range (fuel : Nat) (board : Board) (ai : Cell) (m : Nat) :
    -1 ≤ aiScore fuel board ai m ∧ aiScore fuel board ai m ≤ 1 :=
  minimax_score_range fuel (board.set m ai) (other ai) ai (-2) 2

theorem best_moves_nonempty {fuel : Nat} {board : Board} {ai : Cell}
    (hw : check_winner board = none) :
    best_moves_for_ai fuel board ai ≠ [] := by
  rcases foldl_max_attain
    ((available_moves board).map (fun m => aiScore fuel board ai m)) (-2) with h | h
  · exfalso
    cases hmoves : available_moves board with
    | nil => exact absurd hmoves (available_moves_ne_nil hw)
    | cons m0 ms =>
      have hmem : aiScore fuel board ai m0 ∈
          (available_moves board).map (fun m => aiScore fuel board ai m) :=
        List.mem_map.2 ⟨m0, by rw [hmoves]; simp, rfl⟩
      have hle := foldl_max_mem_le _ (-2) _ hmem
      have hr := aiScore_range fuel board ai m0
      rw [h] at hle
      omega
  · obtain ⟨m, hm, heq⟩ := List.mem_map.1 h
    have : m ∈ best_moves_for_ai fuel board ai := mem_best_moves.2 ⟨hm, heq⟩
    exact List.ne_nil_of_mem this

theorem aiScore_eq_gv (fuel : Nat) (board : Board) (ai : Cell) (m : Nat) :
    aiScore fuel board ai m = gameValue fuel (board.set m ai) (other ai) ai :=
  minimax_exact fuel (board.set m ai) (other ai) ai

theorem aiTopScore_eq_gv {fuel : Nat} {board : Board} {ai : Cell}
    (hw : check_winner board = none) (hai : ai ≠ Cell.e)
    (hcnt : board.count Cell.e ≤ fuel) :
    aiTopScore fuel board ai = gameValue fuel board ai ai := by
  cases fuel with
  | zero => have := count_pos_of_none hw; omega
  | succ fuel =>
    rw [gameValue_succ_max hw]
    unfold aiTopScore
    have hpt : ∀ m ∈ available_moves board,
        aiScore (fuel + 1) board ai m =
          gameValue fuel (board.set m ai) (other ai) ai := by
      intro m hm
      rw [aiScore_eq_gv]
      have hcnt' := count_set_lt hm hai
      exact gameValue_fuel_irrel (fuel + 1) fuel (board.set m ai) (other ai) ai
        (other_ne_e ai) (by omega) (by omega)
    rw [List.map_congr_left hpt]

theorem best_move_achieves {fuel : Nat} {board : Board} {ai : Cell} {m : Nat}
    (hw : check_winner board = none) (hai : ai ≠ Cell.e)
    (hcnt : board.count Cell.e ≤ fuel) (hm : m ∈ best_moves_for_ai fuel board ai) :
    gameValue fuel (board.set m ai) (other ai) ai = gameValue fuel board ai ai := by
  obtain ⟨hmav, hsc⟩ := mem_best_moves.1 hm
  rw [← aiScore_eq_gv, hsc, aiTopScore_eq_gv hw hai hcnt]

/-! ### Soundness of the certificate checkers -/

theorem orderedMoves_subset {board : Board} {p : Cell} {m : Nat}
    (h : m ∈ orderedMoves board p) : m ∈ available_moves board := by
  unfold orderedMoves at h
  simp only [List.mem_append, List.mem_filter, Bool.and_eq_true,
    decide_eq_true_eq] at h
  refine mem_available_moves.2 ?_
  rcases h with h | h | h <;> exact ⟨by tauto, by tauto⟩

theorem canLe_sound (mx : Cell) : ∀ (fuel : Nat) (board : Board) (p : Cell),
    canLe mx fuel board p = true → gameValue fuel board p mx ≤ 0 := by
  intro fuel
  induction fuel with
  | zero =>
    intro board p h
    cases hw : check_winner board with
    | some w =>
      rw [canLe, hw] at h
      rw [gameValue_terminal hw]
      have : w ≠ mx := of_decide_eq_true h
      split_ifs <;> omega
    | none => rw [canLe, hw] at h; exact absurd h (by simp)
  | succ fuel ih =>
    intro board p h
    cases hw : check_winner board with
    | some w =>
      rw [canLe, hw] at h
      rw [gameValue_terminal hw]
      have : w ≠ mx := of_decide_eq_true h
      split_ifs <;> omega
    | none =>
      rw [canLe, hw] at h
      by_cases hp : p = mx
      · rw [if_pos hp] at h
        subst hp
        rw [gameValue_succ_max hw]
        refine foldl_max_le _ _ 0 (by omega) ?_
        intro x hx
        obtain ⟨m, hm, rfl⟩ := List.mem_map.1 hx
        exact ih _ _ (List.all_eq_true.1 h m hm)
      · rw [if_neg hp] at h
        rw [gameValue_succ_min hw hp]
        obtain ⟨m, hm, hc⟩ := List.any_eq_true.1 h
        have hchild := ih _ _ hc
        have hmem : gameValue fuel (board.set m p) (other p) mx ∈
            (available_moves board).map
              (fun m' => gameValue fuel (board.set m' p) (other p) mx) :=
          List.mem_map.2 ⟨m, orderedMoves_subset hm, rfl⟩
        have := foldl_min_le_mem _ 2 _ hmem
        omega

theorem canGe_sound (mx : Cell) : ∀ (fuel : Nat) (board : Board) (p : Cell),
    canGe mx fuel board p = true → 0 ≤ gameValue fuel board p mx := by
  intro fuel
  induction fuel with
  | zero =>
    intro board p h
    cases hw : check_winner board with
    | some w =>
      rw [canGe, hw] at h
      rw [gameValue_terminal hw]
      have : w = mx ∨ w = Cell.D := of_decide_eq_true h
      rcases this with h' | h' <;> subst h' <;> split_ifs <;> simp_all
    | none => rw [canGe, hw] at h; exact absurd h (by simp)
  | succ fuel ih =>
    intro board p h
    cases hw : check_winner board with
    | some w =>
      rw [canGe, hw] at h
      rw [gameValue_terminal hw]
      have : w = mx ∨ w = Cell.D := of_decide_eq_true h
      rcases this with h' | h' <;> subst h' <;> split_ifs <;> simp_all
    | none =>
      rw [canGe, hw] at h
      by_cases hp : p = mx
      · rw [if_pos hp] at h
        subst hp
        rw [gameValue_succ_max hw]
        obtain ⟨m, hm, hc⟩ := List.any_eq_true.1 h
        have hchild := ih _ _ hc
        have hmem : gameValue fuel (board.set m p) (other p) p ∈
            (available_moves board).map
              (fun m' => gameValue fuel (board.set m' p) (other p) p) :=
          List.mem_map.2 ⟨m, orderedMoves_subset hm, rfl⟩
        have := foldl_max_mem_le _ (-2) _ hmem
        omega
      · rw [if_neg hp] at h
        rw [gameValue_succ_min hw hp]
        refine foldl_min_ge _ _ 0 (by omega) ?_
        intro x hx
        obtain ⟨m, hm, rfl⟩ := List.mem_map.1 hx
        exact ih _ _ (List.all_eq_true.1 h m hm)

/-! ### Classification of `check_winner` against the win-line predicate -/

/-- All cells lie in the game alphabet {Empty, X, O}. -/
def onlyXO (board : Board) : Prop :=
  ∀ c ∈ board, c = Cell.e ∨ c = Cell.X ∨ c = Cell.O

instance (board : Board) : Decidable (onlyXO board) := by
  unfold onlyXO
  infer_instance

theorem lineWinner_sound (board : Board) : ∀ (ls : List (Nat × Nat × Nat)) (w : Cell),
    lineWinner board ls = some w →
    w ≠ Cell.e ∧ ∃ l ∈ ls, board.getD l.1 Cell.e = w ∧
      board.getD l.2.1 Cell.e = w ∧ board.getD l.2.2 Cell.e = w := by
  intro ls
  induction ls with
  | nil => intro w h; simp [lineWinner] at h
  | cons l rest ih =>
    intro w h
    obtain ⟨a, b, c⟩ := l
    rw [lineWinner] at h
    by_cases hc : board.getD a Cell.e ≠ Cell.e ∧
        board.getD a Cell.e = board.getD b Cell.e ∧
        board.getD b Cell.e = board.getD c Cell.e
    · rw [if_pos hc] at h
      obtain ⟨h1, h2, h3⟩ := hc
      injection h with h
      subst h
      exact ⟨h1, (a, b, c), by simp, rfl, h2.symm, by rw [← h3, ← h2]⟩
    · rw [if_neg hc] at h
      obtain ⟨hw, l', hl', hrest⟩ := ih w h
      exact ⟨hw, l', List.mem_cons_of_mem _ hl', hrest⟩

theorem lineWinner_complete (board : Board) : ∀ (ls : List (Nat × Nat × Nat)) (s : Cell),
    s ≠ Cell.e →
    (∃ l ∈ ls, board.getD l.1 Cell.e = s ∧ board.getD l.2.1 Cell.e = s ∧
      board.getD l.2.2 Cell.e = s) →
    ∃ w, lineWinner board ls = some w := by
  intro ls
  induction ls with
  | nil => intro s _ h; simp at h
  | cons l rest ih =>
    intro s hs h
    obtain ⟨a, b, c⟩ := l
    rw [lineWinner]
    by_cases hc : board.getD a Cell.e ≠ Cell.e ∧
        board.getD a Cell.e = board.getD b Cell.e ∧
        board.getD b Cell.e = board.getD c Cell.e
    · exact ⟨board.getD a Cell.e, by rw [if_pos hc]⟩
    · rw [if_neg hc]
      obtain ⟨l', hl', h1, h2, h3⟩ := h
      rcases List.mem_cons.1 hl' with rfl | hl'
    
      · exfalso
        exact hc ⟨by rw [h1]; exact hs, by rw [h1, h2], by rw [h2, h3]⟩
      · exact ih s hs ⟨l', hl', h1, h2, h3⟩

theorem lineFilled_mem {board : Board} {s : Cell} (h : lineFilled board s) : s ∈ board := by
  obtain ⟨hs, l, _, h1, _, _⟩ := h
  rw [← h1]
  exact getD_mem board l.1 (by rw [h1]; exact hs)

theorem check_winner_win_sound {board : Board} {w : Cell}
    (h : check_winner board = some w) (hD : w ≠ Cell.D) : lineFilled board w := by
  unfold check_winner at h
  cases hl : lineWinner board WIN_LINES with
  | some w' =>
    rw [hl] at h
    injection h with h
    subst h
    obtain ⟨hne, l, hmem, hcells⟩ := lineWinner_sound board WIN_LINES w' hl
    exact ⟨hne, l, hmem, hcells⟩
  | none =>
    rw [hl] at h
    by_cases he : Cell.e ∈ board
    · rw [if_pos he] at h; simp at h
    · rw [if_neg he] at h
      injection h with h
      exact absurd h.symm hD

theorem check_winner_win_exists {board : Board} {s : Cell} (hs : lineFilled board s) :
    ∃ w, check_winner board = some w ∧ w ≠ Cell.e ∧ lineFilled board w := by
  obtain ⟨hse, l, hl, hc⟩ := hs
  obtain ⟨w, hw⟩ := lineWinner_complete board WIN_LINES s hse ⟨l, hl, hc⟩
  obtain ⟨hwne, l', hl', hc'⟩ := lineWinner_sound board WIN_LINES w hw
  refine ⟨w, ?_, hwne, hwne, l', hl', hc'⟩
  unfold check_winner
  rw [hw]

theorem lineFilled_XO {board : Board} {s : Cell} (hXO : onlyXO board)
    (h : lineFilled board s) : s = Cell.X ∨ s = Cell.O := by
  have hmem := lineFilled_mem h
  rcases hXO s hmem with h' | h' | h'
  · exact absurd h' h.1
  · exact Or.inl h'
  · exact Or.inr h'

theorem check_winner_draw_iff {board : Board} (hXO : onlyXO board) :
    check_winner board = some Cell.D ↔
      Cell.e ∉ board ∧ ¬lineFilled board Cell.X ∧ ¬lineFilled board Cell.O := by
  constructor
  · intro h
    have hnoline : ∀ s, ¬lineFilled board s := by
      intro s hs
      obtain ⟨w, hw, hwne, hwf⟩ := check_winner_win_exists hs
      rw [h] at hw
      injection hw with hw
      rcases lineFilled_XO hXO hwf with h' | h' <;> rw [← hw] at h' <;> simp at h'
    refine ⟨?_, hnoline Cell.X, hnoline Cell.O⟩
    intro he
    unfold check_winner at h
    cases hl : lineWinner board WIN_LINES with
    | some w' =>
      obtain ⟨hwne, l, hmem, hcells⟩ := lineWinner_sound board WIN_LINES w' hl
      exact hnoline w' ⟨hwne, l, hmem, hcells⟩
    | none =>
      rw [hl, if_pos he] at h
      simp at h
  · rintro ⟨he, hX, hO⟩
    unfold check_winner
    cases hl : lineWinner board WIN_LINES with
    | some w' =>
      exfalso
      obtain ⟨hwne, l, hmem, hcells⟩ := lineWinner_sound board WIN_LINES w' hl
      have hwf : lineFilled board w' := ⟨hwne, l, hmem, hcells⟩
      rcases lineFilled_XO hXO hwf with h' | h' <;> subst h'
      · exact hX hwf
      · exact hO hwf
    | none => rw [if_neg he]

theorem check_winner_none_iff {board : Board} (hXO : onlyXO board) :
    check_winner board = none ↔
      Cell.e ∈ board ∧ ¬lineFilled board Cell.X ∧ ¬lineFilled board Cell.O := by
  constructor
  · intro h
    have hnoline : ∀ s, ¬lineFilled board s := by
      intro s hs
      obtain ⟨w, hw, _, _⟩ := check_winner_win_exists hs
      rw [h] at hw
      simp at hw
    exact ⟨check_winner_none_mem h, hnoline Cell.X, hnoline Cell.O⟩
  · rintro ⟨he, hX, hO⟩
    unfold check_winner
    cases hl : lineWinner board WIN_LINES with
    | some w' =>
      exfalso
      obtain ⟨hwne, l, hmem, hcells⟩ := lineWinner_sound board WIN_LINES w' hl
      have hwf : lineFilled board w' := ⟨hwne, l, hmem, hcells⟩
      rcases lineFilled_XO hXO hwf with h' | h' <;> subst h'
      · exact hX hwf
      · exact hO hwf
    | none => rw [if_pos he]

theorem check_winner_win_iff {board : Board} {s : Cell} (hXO : onlyXO board)
    (huniq : ¬(lineFilled board Cell.X ∧ lineFilled board Cell.O)) :
    (check_winner board = some s ∧ s ≠ Cell.D) ↔ lineFilled board s := by
  constructor
  · rintro ⟨h, hD⟩
    exact check_winner_win_sound h hD
  · intro hs
    obtain ⟨w, hw, hwne, hwf⟩ := check_winner_win_exists hs
    have hsXO := lineFilled_XO hXO hs
    have hwXO := lineFilled_XO hXO hwf
    have hws : w = s := by
      rcases hsXO with rfl | rfl <;> rcases hwXO with h' | h' <;> subst h'
      · rfl
      · exact absurd ⟨hs, hwf⟩ huniq
      · exact absurd ⟨hwf, hs⟩ huniq
      · rfl
    subst hws
    refine ⟨hw, ?_⟩
    rcases hwXO with rfl | rfl <;> simp

/-! ### The game value is zero-sum in the maximizing symbol -/

theorem check_winner_cell {board : Board} {w : Cell}
    (h : check_winner board = some w) (hD : w ≠ Cell.D) : w ∈ board ∧ w ≠ Cell.e := by
  have hf := check_winner_win_sound h hD
  exact ⟨lineFilled_mem hf, hf.1⟩

theorem onlyXO_set {board : Board} {q : Cell} (hXO : onlyXO board)
    (hq : q = Cell.X ∨ q = Cell.O) (m : Nat) : onlyXO (board.set m q) := by
  intro c hc
  rcases List.mem_or_eq_of_mem_set hc with hc | rfl
  · exact hXO c hc
  · rcases hq with rfl | rfl
    · exact Or.inr (Or.inl rfl)
    · exact Or.inr (Or.inr rfl)

theorem other_X : other Cell.X = Cell.O := rfl

theorem other_O : other Cell.O = Cell.X := rfl

theorem gameValue_neg : ∀ (fuel : Nat) (board : Board) (p : Cell),
    onlyXO board → (p = Cell.X ∨ p = Cell.O) →
    gameValue fuel board p Cell.X = - gameValue fuel board p Cell.O := by
  intro fuel
  induction fuel with
  | zero =>
    intro board p hXO hp
    cases hw : check_winner board with
    | some w =>
      rw [gameValue_terminal hw, gameValue_terminal hw]
      by_cases hD : w = Cell.D
      · subst hD; decide
      · obtain ⟨hmem, hne⟩ := check_winner_cell hw hD
        rcases hXO w hmem with rfl | rfl | rfl
        · exact absurd rfl hne
        · decide
        · decide
    | none => rw [gameValue_fuel0 hw, gameValue_fuel0 hw]; decide
  | succ fuel ih =>
    intro board p hXO hp
    cases hw : check_winner board with
    | some w =>
      rw [gameValue_terminal hw, gameValue_terminal hw]
      by_cases hD : w = Cell.D
      · subst hD; decide
      · obtain ⟨hmem, hne⟩ := check_winner_cell hw hD
        rcases hXO w hmem with rfl | rfl | rfl
        · exact absurd rfl hne
        · decide
        · decide
    | none =>
      rcases hp with rfl | rfl
      · rw [gameValue_succ_max hw, gameValue_succ_min hw (by decide)]
        have hpt : ∀ m ∈ available_moves board,
            gameValue fuel (board.set m Cell.X) (other Cell.X) Cell.X =
              - gameValue fuel (board.set m Cell.X) (other Cell.X) Cell.O := by
          intro m _
          exact ih (board.set m Cell.X) (other Cell.X)
            (onlyXO_set hXO (Or.inl rfl) m) (Or.inr other_X)
        rw [List.map_congr_left hpt,
          show ((available_moves board).map (fun m =>
            - gameValue fuel (board.set m Cell.X) (other Cell.X) Cell.O)) =
            (((available_moves board).map (fun m =>
              gameValue fuel (board.set m Cell.X) (other Cell.X) Cell.O)).map
              (fun x => -x)) by rw [List.map_map]; rfl]
        exact foldl_max_neg _ 2
      · rw [gameValue_succ_min hw (by decide), gameValue_succ_max hw]
        have hpt : ∀ m ∈ available_moves board,
            gameValue fuel (board.set m Cell.O) (other Cell.O) Cell.X =
              - gameValue fuel (board.set m Cell.O) (other Cell.O) Cell.O := by
          intro m _
          exact ih (board.set m Cell.O) (other Cell.O)
            (onlyXO_set hXO (Or.inr rfl) m) (Or.inl other_O)
        rw [List.map_congr_left hpt,
          show ((available_moves board).map (fun m =>
            - gameValue fuel (board.set m Cell.O) (other Cell.O) Cell.O)) =
            (((available_moves board).map (fun m =>
              gameValue fuel (board.set m Cell.O) (other Cell.O) Cell.O)).map
              (fun x => -x)) by rw [List.map_map]; rfl]
        exact foldl_min_neg _ (-2)

/-! ### Concrete game values from the empty board, via certificates -/

theorem fresh_none : check_winner fresh_board = none := by decide

theorem fresh_count : fresh_board.count Cell.e = 9 := by decide

set_option maxRecDepth 40000 in
set_option maxHeartbeats 8000000 in
theorem cert_fresh_ge : canGe Cell.X 9 fresh_board Cell.X = true := by decide

set_option maxRecDepth 40000 in
set_option maxHeartbeats 8000000 in
theorem cert_fresh_le : canLe Cell.X 9 fresh_board Cell.X = true := by decide

set_option maxRecDepth 40000 in
set_option maxHeartbeats 8000000 in
theorem cert_children_ge :
    ([0, 2, 4, 6, 8] : List Nat).all
      (fun m => canGe Cell.X 9 (fresh_board.set m Cell.X) Cell.O) = true := by decide

/-- Tic-Tac-Toe is a draw: the game value of the empty board is 0. -/
theorem gv_fresh : gameValue 9 fresh_board Cell.X Cell.X = 0 := by
  have h1 := canGe_sound Cell.X 9 fresh_board Cell.X cert_fresh_ge
  have h2 := canLe_sound Cell.X 9 fresh_board Cell.X cert_fresh_le
  omega

theorem gv_fresh_child_le {m : Nat} (hm : m ∈ available_moves fresh_board) :
    gameValue 9 (fresh_board.set m Cell.X) (other Cell.X) Cell.X ≤ 0 := by
  have h9 : ((available_moves fresh_board).map
      (fun m' => gameValue 8 (fresh_board.set m' Cell.X) (other Cell.X) Cell.X)).foldl
        max (-2) = 0 := by
    rw [← gameValue_succ_max fresh_none 8]
    exact gv_fresh
  have hmem : gameValue 8 (fresh_board.set m Cell.X) (other Cell.X) Cell.X ∈
      (available_moves fresh_board).map
        (fun m' => gameValue 8 (fresh_board.set m' Cell.X) (other Cell.X) Cell.X) :=
    List.mem_map.2 ⟨m, hm, rfl⟩
  have hle := foldl_max_mem_le _ (-2) _ hmem
  have hcnt := count_set_lt hm (show Cell.X ≠ Cell.e by decide)
  rw [fresh_count] at hcnt
  have hfi : gameValue 8 (fresh_board.set m Cell.X) (other Cell.X) Cell.X =
      gameValue 9 (fresh_board.set m Cell.X) (other Cell.X) Cell.X :=
    gameValue_fuel_irrel 8 9 _ _ _ (other_ne_e _) (by omega) (by omega)
  rw [hfi] at hle
  omega

theorem gv_fresh_child {m : Nat} (hm : m ∈ ([0, 2, 4, 6, 8] : List Nat)) :
    gameValue 9 (fresh_board.set m Cell.X) (other Cell.X) Cell.X = 0 := by
  have hav : m ∈ available_moves fresh_board := by
    have : available_moves fresh_board = [0, 1, 2, 3, 4, 5, 6, 7, 8] := by decide
    rw [this]
    fin_cases hm <;> decide
  have hge0 := canGe_sound Cell.X 9 (fresh_board.set m Cell.X) Cell.O
    (List.all_eq_true.1 cert_children_ge m hm)
  have hge : 0 ≤ gameValue 9 (fresh_board.set m Cell.X) (other Cell.X) Cell.X := by
    rw [other_X]
    exact hge0
  have hle := gv_fresh_child_le hav
  omega

/-! ### Optimal self-play -/

/-- The positions reachable when both sides always play a move from the
tie set of `best_move_for_ai` (any tie-break whatsoever), starting from
the empty board with X to move. -/
inductive SelfPlay : Board → Cell → Prop where
  | start : SelfPlay fresh_board Cell.X
  | step {board : Board} {p : Cell} {m : Nat} :
      SelfPlay board p → check_winner board = none →
      m ∈ best_moves_for_ai 9 board p →
      SelfPlay (board.set m p) (other p)

theorem selfPlay_inv {board : Board} {p : Cell} (h : SelfPlay board p) :
    board.length = 9 ∧ onlyXO board ∧ (p = Cell.X ∨ p = Cell.O) ∧
      gameValue 9 board p p = 0 := by
  induction h with
  | start =>
    refine ⟨by decide, ?_, Or.inl rfl, gv_fresh⟩
    intro c hc
    rw [List.eq_of_mem_replicate hc]
    exact Or.inl rfl
  | @step board p m hsp hw hm ih =>
    obtain ⟨hlen, hXO, hp, hgv⟩ := ih
    have hpne : p ≠ Cell.e := by rcases hp with rfl | rfl <;> decide
    have hcnt : board.count Cell.e ≤ 9 := by
      have := List.count_le_length Cell.e board
      omega
    have hach : gameValue 9 (board.set m p) (other p) p = 0 := by
      rw [best_move_achieves hw hpne hcnt hm, hgv]
    refine ⟨by rw [List.length_set]; exact hlen, onlyXO_set hXO hp m, other_XO p, ?_⟩
    rcases hp with rfl | rfl
    · rw [other_X] at hach ⊢
      have hn := gameValue_neg 9 (board.set m Cell.X) Cell.O
        (onlyXO_set hXO (Or.inl rfl) m) (Or.inr rfl)
      omega
    · rw [other_O] at hach ⊢
      have hn := gameValue_neg 9 (board.set m Cell.O) Cell.X
        (onlyXO_set hXO (Or.inr rfl) m) (Or.inl rfl)
      omega

theorem selfPlay_draw {board : Board} {p w : Cell} (hsp : SelfPlay board p)
    (hw : check_winner board = some w) : w = Cell.D := by
  obtain ⟨_, _, hp, hgv⟩ := selfPlay_inv hsp
  rw [gameValue_terminal hw] at hgv
  by_contra hne
  rw [if_neg hne] at hgv
  split_ifs at hgv
  all_goals omega

theorem best_moves_subset {fuel : Nat} {board : Board} {ai : Cell} {m : Nat}
    (hm : m ∈ best_moves_for_ai fuel board ai) :
    m < board.length ∧ board.getD m Cell.e = Cell.e :=
  mem_available_moves.1 (mem_best_moves.1 hm).1

/-! ### The claims -/

/-- Claim C1: for every non-terminal board and both AI symbols, the move
returned by `best_move_for_ai` (under any tie-break picking from the
candidate list) achieves the game-theoretic minimax value of the
position; the game value of the empty board for the first player is 0,
so the AI moving first never loses under perfect play; and any game in
which both sides always play moves from `best_move_for_ai`'s candidate
set (`SelfPlay`) ends in a draw. -/
theorem c1_best_move_optimal_and_selfplay_draws :
    (∀ (fuel : Nat) (board : Board) (ai : Cell) (choice : List Nat → Nat),
      check_winner board = none → (ai = Cell.X ∨ ai = Cell.O) →
      board.count Cell.e ≤ fuel →
      (∀ l : List Nat, l ≠ [] → choice l ∈ l) →
      gameValue fuel (board.set (best_move_for_ai choice fuel board ai) ai)
          (other ai) ai =
        gameValue fuel board ai ai) ∧
    gameValue 9 fresh_board Cell.X Cell.X = 0 ∧
    (∀ (board : Board) (p w : Cell),
      SelfPlay board p → check_winner board = some w → w = Cell.D) := by
  refine ⟨?_, gv_fresh, fun _ _ _ hsp hw => selfPlay_draw hsp hw⟩
  intro fuel board ai choice hw hai hcnt hch
  have hne := @best_moves_nonempty fuel board ai hw
  have hmem : best_move_for_ai choice fuel board ai ∈ best_moves_for_ai fuel board ai :=
    hch _ hne
  have haine : ai ≠ Cell.e := by rcases hai with rfl | rfl <;> decide
  exact best_move_achieves hw haine hcnt hmem

theorem c1_witness :
    (check_winner [Cell.X, Cell.X, Cell.e, Cell.O, Cell.O, Cell.e, Cell.e, Cell.e, Cell.e] = none ∧
      List.count Cell.e [Cell.X, Cell.X, Cell.e, Cell.O, Cell.O, Cell.e, Cell.e, Cell.e, Cell.e] ≤ 9) ∧
    gameValue 9
        (([Cell.X, Cell.X, Cell.e, Cell.O, Cell.O, Cell.e, Cell.e, Cell.e, Cell.e] : Board).set
          (best_move_for_ai (fun l => l.headD 0) 9
            [Cell.X, Cell.X, Cell.e, Cell.O, Cell.O, Cell.e, Cell.e, Cell.e, Cell.e] Cell.X)
          Cell.X)
        (other Cell.X) Cell.X =
      gameValue 9 [Cell.X, Cell.X, Cell.e, Cell.O, Cell.O, Cell.e, Cell.e, Cell.e, Cell.e]
        Cell.X Cell.X :=
  ⟨⟨by decide, by decide⟩,
    c1_best_move_optimal_and_selfplay_draws.1 9 _ Cell.X (fun l => l.headD 0)
      (by decide) (Or.inl rfl) (by decide)
      (by
        intro l hl
        cases l with
        | nil => exact absurd rfl hl
        | cons a as => simp)⟩

/-- Claim C2 fails as stated: on the (unreachable but well-formed)
9-cell board `[X,X,X,O,O,O, , , ]` both row 0-1-2 (all `X`) and row
3-4-5 (all `O`) are complete; `check_winner` returns the first match
`X`, so it does not return `Win(O)` although an O-line is filled,
refuting the "iff" direction for `s = O`. -/
theorem c2_counterexample :
    lineFilled [Cell.X, Cell.X, Cell.X, Cell.O, Cell.O, Cell.O, Cell.e, Cell.e, Cell.e] Cell.O ∧
      check_winner [Cell.X, Cell.X, Cell.X, Cell.O, Cell.O, Cell.O, Cell.e, Cell.e, Cell.e] ≠
        some Cell.O := by
  constructor
  · exact ⟨by decide, (3, 4, 5), by decide, by decide, by decide, by decide⟩
  · decide

/-- Claim C2, amended: over 9-cell boards with cells in {Empty, X, O},
`check_winner` returning a symbol always means that symbol has a
complete line; the "Win(s) iff some line is filled with s"
equivalence holds whenever not both symbols have complete lines (in
particular on every reachable board); the Draw and InProgress
classifications hold unconditionally; and the full drawn board of
Scenario 4 classifies as a draw. -/
theorem c2_classify_amended :
    (∀ board : Board, board.length = 9 → onlyXO board →
      (∀ w, check_winner board = some w → w ≠ Cell.D → lineFilled board w) ∧
      (¬(lineFilled board Cell.X ∧ lineFilled board Cell.O) →
        ∀ s, (check_winner board = some s ∧ s ≠ Cell.D) ↔ lineFilled board s) ∧
      (check_winner board = some Cell.D ↔
        Cell.e ∉ board ∧ ¬lineFilled board Cell.X ∧ ¬lineFilled board Cell.O) ∧
      (check_winner board = none ↔
        Cell.e ∈ board ∧ ¬lineFilled board Cell.X ∧ ¬lineFilled board Cell.O)) ∧
    check_winner [Cell.X, Cell.O, Cell.X, Cell.O, Cell.X, Cell.O, Cell.O, Cell.X, Cell.O] =
      some Cell.D := by
  refine ⟨?_, by decide⟩
  intro board _ hXO
  exact ⟨fun w hw hD => check_winner_win_sound hw hD,
    fun huniq s => check_winner_win_iff hXO huniq,
    check_winner_draw_iff hXO,
    check_winner_none_iff hXO⟩

theorem c2_witness :
    (([Cell.X, Cell.O, Cell.X, Cell.O, Cell.X, Cell.O, Cell.O, Cell.X, Cell.O] : Board).length = 9 ∧
      onlyXO [Cell.X, Cell.O, Cell.X, Cell.O, Cell.X, Cell.O, Cell.O, Cell.X, Cell.O]) ∧
    (check_winner [Cell.X, Cell.O, Cell.X, Cell.O, Cell.X, Cell.O, Cell.O, Cell.X, Cell.O] =
        some Cell.D ↔
      Cell.e ∉ ([Cell.X, Cell.O, Cell.X, Cell.O, Cell.X, Cell.O, Cell.O, Cell.X, Cell.O] : Board) ∧
      ¬lineFilled [Cell.X, Cell.O, Cell.X, Cell.O, Cell.X, Cell.O, Cell.O, Cell.X, Cell.O] Cell.X ∧
      ¬lineFilled [Cell.X, Cell.O, Cell.X, Cell.O, Cell.X, Cell.O, Cell.O, Cell.X, Cell.O] Cell.O) :=
  ⟨⟨by decide, by decide⟩,
    (c2_classify_amended.1 _ (by decide) (by decide)).2.2.1⟩

/-- Claim C3: the state-threading model of the mutating search
(`minimaxSt`, `best_moves_for_aiSt`, which perform every
`board[m] = player` / `board[m] = " "` write of the source on the
threaded state) returns the board element-for-element equal to the
board passed in: every cell written during the search is restored. -/
theorem c3_board_restoration (fuel : Nat) (board : Board) (p mx ai : Cell)
    (alpha beta : Int) :
    (minimaxSt fuel board p mx alpha beta).2 = board ∧
    (best_moves_for_aiSt fuel board ai).2 = board := by
  constructor
  · rw [minimaxSt_spec]
  · rw [best_moves_for_aiSt_spec]

/-- Claim C4: `best_moves_for_ai` is exactly the set of legal moves
whose (full-window) minimax score attains the maximum over all legal
moves — ties are collected, not resolved first-found; the returned move
is a member of that set (for any tie-breaking choice function, the
model of `random.choice`); each candidate's score is the
game-theoretic value of the position after the move; and from the
empty board all four corners and the centre are members of the sampled
set. -/
theorem c4_tie_set :
    (∀ (fuel : Nat) (board : Board) (ai : Cell),
      best_moves_for_ai fuel board ai =
        (available_moves board).filter
          (fun m => aiScore fuel board ai m = aiTopScore fuel board ai)) ∧
    (∀ (fuel : Nat) (board : Board) (ai : Cell) (m : Nat),
      aiScore fuel board ai m = gameValue fuel (board.set m ai) (other ai) ai) ∧
    (∀ (fuel : Nat) (board : Board) (ai : Cell) (choice : List Nat → Nat),
      check_winner board = none → (∀ l : List Nat, l ≠ [] → choice l ∈ l) →
      best_move_for_ai choice fuel board ai ∈ best_moves_for_ai fuel board ai) ∧
    (∀ m ∈ ([0, 2, 4, 6, 8] : List Nat), m ∈ best_moves_for_ai 9 fresh_board Cell.X) := by
  refine ⟨best_moves_eq_filter, aiScore_eq_gv, ?_, ?_⟩
  · intro fuel board ai choice hw hch
    exact hch _ (best_moves_nonempty hw)
  · intro m hm
    refine mem_best_moves.2 ⟨?_, ?_⟩
    · have : available_moves fresh_board = [0, 1, 2, 3, 4, 5, 6, 7, 8] := by decide
      rw [this]
      fin_cases hm <;> decide
    · rw [aiScore_eq_gv, gv_fresh_child hm,
        aiTopScore_eq_gv fresh_none (by decide) (by rw [fresh_count]), gv_fresh]

theorem c4_witness :
    ((4 : Nat) ∈ ([0, 2, 4, 6, 8] : List Nat)) ∧
      (4 : Nat) ∈ best_moves_for_ai 9 fresh_board Cell.X :=
  ⟨by decide, c4_tie_set.2.2.2 4 (by decide)⟩

/-- Claim C5: on a terminal board (any fuel, any player to move, any
alpha/beta) `minimax` returns `(0, none)` for a draw, `(1, none)` when
the winning symbol equals the maximizing symbol and `(-1, none)`
otherwise — the returned move at a terminal node is always `none`. -/
theorem c5_terminal_scores (fuel : Nat) (board : Board) (p mx : Cell)
    (alpha beta : Int) :
    (check_winner board = some Cell.D → minimax fuel board p mx alpha beta = (0, none)) ∧
    (∀ w, check_winner board = some w → w ≠ Cell.D →
      (w = mx → minimax fuel board p mx alpha beta = (1, none)) ∧
      (w ≠ mx → minimax fuel board p mx alpha beta = (-1, none))) := by
  constructor
  · intro hw
    rw [minimax_terminal hw]
    simp
  · intro w hw hD
    constructor
    · intro hmx
      rw [minimax_terminal hw, if_neg hD, if_pos hmx]
    · intro hmx
      rw [minimax_terminal hw, if_neg hD, if_neg hmx]

theorem c5_witness :
    check_winner [Cell.X, Cell.O, Cell.X, Cell.O, Cell.X, Cell.O, Cell.O, Cell.X, Cell.O] =
      some Cell.D ∧
    minimax 9 [Cell.X, Cell.O, Cell.X, Cell.O, Cell.X, Cell.O, Cell.O, Cell.X, Cell.O]
      Cell.X Cell.X (-2) 2 = (0, none) :=
  ⟨by decide,
    (c5_terminal_scores 9 _ Cell.X Cell.X (-2) 2).1 (by decide)⟩

/-- Claim C6 (Scenario 2): on the board `[X,X, ,O,O, , , , ]` with the
AI playing X, the tie set is exactly `[2]` (index 2 completes row
0-1-2 for an immediate win, the unique move of score +1), so the
returned move is 2 for every tie-breaking choice function. -/
theorem c6_scenario2 :
    best_moves_for_ai 9
        [Cell.X, Cell.X, Cell.e, Cell.O, Cell.O, Cell.e, Cell.e, Cell.e, Cell.e] Cell.X = [2] ∧
    aiScore 9 [Cell.X, Cell.X, Cell.e, Cell.O, Cell.O, Cell.e, Cell.e, Cell.e, Cell.e]
      Cell.X 2 = 1 ∧
    (∀ choice : List Nat → Nat, (∀ l : List Nat, l ≠ [] → choice l ∈ l) →
      best_move_for_ai choice 9
        [Cell.X, Cell.X, Cell.e, Cell.O, Cell.O, Cell.e, Cell.e, Cell.e, Cell.e] Cell.X = 2) := by
  have hbm : best_moves_for_ai 9
      [Cell.X, Cell.X, Cell.e, Cell.O, Cell.O, Cell.e, Cell.e, Cell.e, Cell.e] Cell.X = [2] := by
    decide
  refine ⟨hbm, by decide, ?_⟩
  intro choice hch
  have := hch [2] (by simp)
  unfold best_move_for_ai
  rw [hbm]
  simpa using this

theorem c6_witness :
    best_move_for_ai (fun l => l.headD 0) 9
      [Cell.X, Cell.X, Cell.e, Cell.O, Cell.O, Cell.e, Cell.e, Cell.e, Cell.e] Cell.X = 2 :=
  c6_scenario2.2.2 (fun l => l.headD 0)
    (by
      intro l hl
      cases l with
      | nil => exact absurd rfl hl
      | cons a as => simp)

/-- Claim C7: every recursive call of the search is on a board with
strictly fewer Empty cells (placing a non-Empty symbol on an empty cell
decreases the Empty count by one), so the recursion depth is bounded by
the number of Empty cells: any fuel at least the Empty count — in
particular 9 on a 9-cell board — computes the same result as the exact
Empty count, with no depth limit or cutoff needed. -/
theorem c7_termination (fuel : Nat) (board : Board) (p mx : Cell)
    (alpha beta : Int) :
    (∀ m ∈ available_moves board, p ≠ Cell.e →
      (board.set m p).count Cell.e + 1 = board.count Cell.e) ∧
    (p ≠ Cell.e → board.count Cell.e ≤ fuel →
      minimax fuel board p mx alpha beta =
        minimax (board.count Cell.e) board p mx alpha beta) := by
  constructor
  · intro m hm hp
    exact count_set_lt hm hp
  · intro hp hcnt
    exact minimax_fuel_irrel fuel (board.count Cell.e) board p mx alpha beta hp hcnt
      (le_refl _)

theorem c7_witness :
    (Cell.X ≠ Cell.e ∧
      List.count Cell.e
        [Cell.X, Cell.X, Cell.e, Cell.O, Cell.O, Cell.e, Cell.e, Cell.e, Cell.e] ≤ 9) ∧
    minimax 9 [Cell.X, Cell.X, Cell.e, Cell.O, Cell.O, Cell.e, Cell.e, Cell.e, Cell.e]
        Cell.X Cell.X (-2) 2 =
      minimax
        (List.count Cell.e
          [Cell.X, Cell.X, Cell.e, Cell.O, Cell.O, Cell.e, Cell.e, Cell.e, Cell.e])
        [Cell.X, Cell.X, Cell.e, Cell.O, Cell.O, Cell.e, Cell.e, Cell.e, Cell.e]
        Cell.X Cell.X (-2) 2 :=
  ⟨⟨by decide, by decide⟩,
    (c7_termination 9 _ Cell.X Cell.X (-2) 2).2 (by decide) (by decide)⟩

/-- Claim C8 fails as stated: no validation error is raised at the
boundary.  On the 9-cell board `[Z, ,X,O,X,O,O,X,X]` containing the
out-of-alphabet symbol `Z`, and on the 10-cell board
`[X,O,X,O,X,O,O,X, , ]` of the wrong size, `best_moves_for_ai` simply
runs the search and returns an ordinary move list. -/
theorem c8_counterexample :
    (Cell.Z ∉ ([Cell.e, Cell.X, Cell.O] : List Cell) ∧
      Cell.Z ∈ ([Cell.Z, Cell.e, Cell.X, Cell.O, Cell.X, Cell.O, Cell.O, Cell.X, Cell.X] : Board) ∧
      best_moves_for_ai 9
        [Cell.Z, Cell.e, Cell.X, Cell.O, Cell.X, Cell.O, Cell.O, Cell.X, Cell.X] Cell.X = [1]) ∧
    (([Cell.X, Cell.O, Cell.X, Cell.O, Cell.X, Cell.O, Cell.O, Cell.X, Cell.e, Cell.e] : Board).length ≠ 9 ∧
      best_moves_for_ai 10
        [Cell.X, Cell.O, Cell.X, Cell.O, Cell.X, Cell.O, Cell.O, Cell.X, Cell.e, Cell.e]
        Cell.X = [8]) := by
  exact ⟨⟨by decide, by decide, by decide⟩, ⟨by decide, by decide⟩⟩

/-- Claim C8, amended: the entry points perform no validation at all —
boards of any size and with any cell values are processed by the
search, with out-of-alphabet symbols behaving as occupied cells: every
candidate move ever produced refers to an in-range Empty cell of the
given board, and no error path exists. -/
theorem c8_no_validation_amended (fuel : Nat) (board : Board) (ai : Cell) :
    ∀ m ∈ best_moves_for_ai fuel board ai,
      m < board.length ∧ board.getD m Cell.e = Cell.e := by
  intro m hm
  exact best_moves_subset hm

theorem c8_witness :
    ((1 : Nat) ∈ best_moves_for_ai 9
      [Cell.Z, Cell.e, Cell.X, Cell.O, Cell.X, Cell.O, Cell.O, Cell.X, Cell.X] Cell.X) ∧
    ((1 : Nat) <
        ([Cell.Z, Cell.e, Cell.X, Cell.O, Cell.X, Cell.O, Cell.O, Cell.X, Cell.X] : Board).length ∧
      ([Cell.Z, Cell.e, Cell.X, Cell.O, Cell.X, Cell.O, Cell.O, Cell.X, Cell.X] : Board).getD 1
        Cell.e = Cell.e) :=
  ⟨by decide,
    c8_no_validation_amended 9 _ Cell.X 1 (by decide)⟩

/-- Claim C9: the search is stateless and deterministic.  In the
state-threading model, two calls on boards with equal contents return
equal (score, move) results, the board state left behind equals the
input board (no observable write persists), and a later call running on
the state left by an earlier call returns the same result as the
earlier call. -/
theorem c9_stateless_deterministic (fuel : Nat) (b1 b2 : Board) (p mx : Cell)
    (alpha beta : Int) (hb : b1 = b2) :
    (minimaxSt fuel b1 p mx alpha beta).1 = (minimaxSt fuel b2 p mx alpha beta).1 ∧
    (minimaxSt fuel b1 p mx alpha beta).2 = b1 ∧
    (minimaxSt fuel ((minimaxSt fuel b1 p mx alpha beta).2) p mx alpha beta).1 =
      (minimaxSt fuel b1 p mx alpha beta).1 := by
  subst hb
  refine ⟨rfl, ?_, ?_⟩
  · rw [minimaxSt_spec]
  · rw [minimaxSt_spec, minimaxSt_spec]

theorem c9_witness :
    (([Cell.X, Cell.X, Cell.e, Cell.O, Cell.O, Cell.e, Cell.e, Cell.e, Cell.e] : Board) =
      [Cell.X, Cell.X, Cell.e, Cell.O, Cell.O, Cell.e, Cell.e, Cell.e, Cell.e]) ∧
    (minimaxSt 9 [Cell.X, Cell.X, Cell.e, Cell.O, Cell.O, Cell.e, Cell.e, Cell.e, Cell.e]
        Cell.X Cell.X (-2) 2).2 =
      [Cell.X, Cell.X, Cell.e, Cell.O, Cell.O, Cell.e, Cell.e, Cell.e, Cell.e] :=
  ⟨rfl,
    (c9_stateless_deterministic 9 _ _ Cell.X Cell.X (-2) 2 rfl).2.1⟩

/-- Claim C10: with fuel at least the number of Empty cells (always the
case for the 9-cell game), the score returned by `minimax` lies in
{-1, 0, 1} — the ∓2 sentinels modelling the ±infinity initial values
are never returned — and the returned move is `none` exactly on
terminal boards: on a non-terminal board it is `some m` for a legal
(Empty) cell `m`. -/
theorem c10_score_range_and_move (fuel : Nat) (board : Board) (p mx : Cell)
    (alpha beta : Int) (hcnt : board.count Cell.e ≤ fuel) :
    (-1 ≤ (minimax fuel board p mx alpha beta).1 ∧
      (minimax fuel board p mx alpha beta).1 ≤ 1) ∧
    (∀ w, check_winner board = some w → (minimax fuel board p mx alpha beta).2 = none) ∧
    (check_winner board = none →
      ∃ m, (minimax fuel board p mx alpha beta).2 = some m ∧
        m ∈ available_moves board) := by
  refine ⟨minimax_score_range fuel board p mx alpha beta, ?_, ?_⟩
  · intro w hw
    rw [minimax_terminal hw]
  · intro hw
    have hpos := count_pos_of_none hw
    cases fuel with
    | zero => omega
    | succ fuel =>
      obtain ⟨m, hmav, hm⟩ := @minimax_move_nonterminal board p mx alpha beta fuel hw
      exact ⟨m, hm, hmav⟩

theorem c10_witness :
    (List.count Cell.e
        [Cell.X, Cell.X, Cell.e, Cell.O, Cell.O, Cell.e, Cell.e, Cell.e, Cell.e] ≤ 9) ∧
    (-1 ≤ (minimax 9 [Cell.X, Cell.X, Cell.e, Cell.O, Cell.O, Cell.e, Cell.e, Cell.e, Cell.e]
        Cell.X Cell.X (-2) 2).1 ∧
      (minimax 9 [Cell.X, Cell.X, Cell.e, Cell.O, Cell.O, Cell.e, Cell.e, Cell.e, Cell.e]
        Cell.X Cell.X (-2) 2).1 ≤ 1) :=
  ⟨by decide,
    (c10_score_range_and_move 9 _ Cell.X Cell.X (-2) 2 (by decide)).1⟩
